import Mathlib

/-!
Verification development for the library-app FastAPI service: a shallow
embedding of its cache-key derivation, parameter normalization, version
registry, cursor codec and keyset pagination (src/cache.py, src/helpers.py,
src/routers/book.py, src/routers/author.py, src/routers/review.py),
together with proofs and refutations of the specified properties.

Python strings are modelled as Lean `String`/`List Char`, byte strings as
`List Nat` (each entry < 256), JSON values as the inductive `JVal`, machine
integers as unbounded `Int`/`Nat` (Python ints are unbounded), and SQL
floats as an abstract linear order where only comparisons matter.
-/

namespace LibraryApp

/-! ## Decimal digits: the model of Python `str(int)` used by `json.dumps`
and by the f-string `{version}` in cache-key construction. -/

/-- Digit characters 0-9. -/
def digitChar (d : Nat) : Char := Char.ofNat (48 + d)

/-- Numeric value of a digit character. -/
def digitVal (c : Char) : Nat := c.toNat - 48

/-- Fueled big-endian digit expansion of a natural number (the fuel makes
the definition structurally recursive, hence kernel-reducible). -/
def natDigitsAux : Nat → Nat → List Nat
  | 0, _ => []
  | fuel + 1, n => if n < 10 then [n] else natDigitsAux fuel (n / 10) ++ [n % 10]

/-- Big-endian decimal digits of `n` (`n + 1` units of fuel always suffice). -/
def natDigits (n : Nat) : List Nat := natDigitsAux (n + 1) n

/-- Value of a big-endian digit list. -/
def ofDigits (ds : List Nat) : Nat := ds.foldl (fun a d => 10 * a + d) 0

theorem natDigitsAux_fuel_irrel :
    ∀ f f' n, 0 < f → 0 < f' → n < 10 ^ f → n < 10 ^ f' →
      natDigitsAux f n = natDigitsAux f' n := by
  intro f
  induction f with
  | zero => intro f' n hf _ _ _; omega
  | succ f ih =>
    intro f' n _ hf' h h'
    cases f' with
    | zero => omega
    | succ f' =>
      simp only [natDigitsAux]
      by_cases h10 : n < 10
      · simp [h10]
      · simp only [h10, if_false]
        have hmul : n < 10 ^ f * 10 := by
          calc n < 10 ^ (f + 1) := h
          _ = 10 ^ f * 10 := by ring
        have hmul' : n < 10 ^ f' * 10 := by
          calc n < 10 ^ (f' + 1) := h'
          _ = 10 ^ f' * 10 := by ring
        have hd : n / 10 < 10 ^ f := by omega
        have hd' : n / 10 < 10 ^ f' := by omega
        have hfpos : 0 < f := by
          by_contra hc
          have : f = 0 := by omega
          subst this
          simp at hd
          omega
        have hfpos' : 0 < f' := by
          by_contra hc
          have : f' = 0 := by omega
          subst this
          simp at hd'
          omega
        rw [ih f' (n / 10) hfpos hfpos' hd hd']

theorem lt_ten_pow_succ (n : Nat) : n < 10 ^ (n + 1) := by
  calc n < n + 1 := Nat.lt_succ_self n
  _ ≤ 10 ^ (n + 1) := by
    calc n + 1 ≤ 2 ^ (n + 1) := le_of_lt (Nat.lt_two_pow (n + 1))
    _ ≤ 10 ^ (n + 1) := Nat.pow_le_pow_left (by norm_num) _

/-- Unfolding equation for `natDigits`, independent of the internal fuel. -/
theorem natDigits_eq (n : Nat) :
    natDigits n = if n < 10 then [n] else natDigits (n / 10) ++ [n % 10] := by
  show natDigitsAux (n + 1) n = _
  simp only [natDigitsAux]
  by_cases h10 : n < 10
  · simp [h10]
  · simp only [h10, if_false]
    congr 1
    exact natDigitsAux_fuel_irrel n (n / 10 + 1) (n / 10)
      (by omega) (by omega)
      (by
        have hle : n / 10 + 1 ≤ n := by omega
        calc n / 10 < 10 ^ (n / 10 + 1) := lt_ten_pow_succ _
        _ ≤ 10 ^ n := Nat.pow_le_pow_right (by norm_num) hle)
      (lt_ten_pow_succ (n / 10))

theorem natDigits_ne_nil (n : Nat) : natDigits n ≠ [] := by
  rw [natDigits_eq]
  by_cases h : n < 10 <;> simp [h]

theorem natDigits_lt_ten (n : Nat) : ∀ d ∈ natDigits n, d < 10 := by
  induction n using Nat.strong_induction_on with
  | _ n ih =>
    rw [natDigits_eq]
    by_cases h : n < 10
    · simp [h]
    · simp only [h, if_false, List.mem_append, List.mem_singleton]
      intro d hd
      rcases hd with hd | hd
      · exact ih (n / 10) (Nat.div_lt_self (by omega) (by norm_num)) d hd
      · subst hd; exact Nat.mod_lt _ (by norm_num)

theorem ofDigits_append_single (ds : List Nat) (d : Nat) :
    ofDigits (ds ++ [d]) = 10 * ofDigits ds + d := by
  simp [ofDigits, List.foldl_append]

theorem ofDigits_natDigits (n : Nat) : ofDigits (natDigits n) = n := by
  induction n using Nat.strong_induction_on with
  | _ n ih =>
    rw [natDigits_eq]
    by_cases h : n < 10
    · simp [h, ofDigits]
    · simp only [h, if_false]
      rw [ofDigits_append_single,
        ih (n / 10) (Nat.div_lt_self (by omega) (by norm_num))]
      omega

/-- Decimal digit characters of `n`, most significant first. -/
def charsOfNat (n : Nat) : List Char := (natDigits n).map digitChar

/-- Model of Python `str(n)` for a nonnegative integer. -/
def natRepr (n : Nat) : String := ⟨charsOfNat n⟩

/-- Model of Python `str(n)` for an arbitrary integer, as a character list. -/
def intReprChars (n : Int) : List Char :=
  if n < 0 then '-' :: charsOfNat n.natAbs else charsOfNat n.natAbs

/-- Accumulated numeric value of a digit-character list. -/
def digitsVal (cs : List Char) : Nat :=
  cs.foldl (fun a c => 10 * a + digitVal c) 0

/-- Greedy decimal-digit scanner: reads a nonempty run of digits, returning
its value and the unconsumed suffix (the number scanner inside `json.loads`
and the version segment of a cache key both behave this way). -/
def parseNatChars (cs : List Char) : Option (Nat × List Char) :=
  let ds := cs.takeWhile Char.isDigit
  if ds.isEmpty then none else some (digitsVal ds, cs.dropWhile Char.isDigit)

/-- Sign-aware integer scanner. -/
def parseIntChars (cs : List Char) : Option (Int × List Char) :=
  if cs.head? = some '-' then
    (parseNatChars cs.tail).map (fun p => (-(p.1 : Int), p.2))
  else
    (parseNatChars cs).map (fun p => ((p.1 : Int), p.2))

/-- Whether a character list starts with a decimal digit. -/
def headIsDigit : List Char → Bool
  | [] => false
  | c :: _ => c.isDigit

theorem digitChar_isDigit : ∀ d, d < 10 → (digitChar d).isDigit = true := by decide

theorem digitVal_digitChar : ∀ d, d < 10 → digitVal (digitChar d) = d := by decide

theorem charsOfNat_all_digit (n : Nat) : ∀ c ∈ charsOfNat n, c.isDigit = true := by
  intro c hc
  obtain ⟨d, hd, rfl⟩ := List.mem_map.mp hc
  exact digitChar_isDigit d (natDigits_lt_ten n d hd)

theorem takeWhile_append_all {p : Char → Bool} {l r : List Char}
    (h : ∀ c ∈ l, p c = true) :
    (l ++ r).takeWhile p = l ++ r.takeWhile p := by
  induction l with
  | nil => simp
  | cons c t ih =>
    simp [List.takeWhile_cons, h c (by simp), ih (fun x hx => h x (by simp [hx]))]

theorem dropWhile_append_all {p : Char → Bool} {l r : List Char}
    (h : ∀ c ∈ l, p c = true) :
    (l ++ r).dropWhile p = r.dropWhile p := by
  induction l with
  | nil => simp
  | cons c t ih =>
    simp only [List.cons_append, List.dropWhile_cons, h c (by simp)]
    exact ih (fun x hx => h x (by simp [hx]))

theorem takeWhile_head_false {p : Char → Bool} {r : List Char}
    (h : (match r with | [] => false | c :: _ => p c) = false) :
    r.takeWhile p = [] := by
  cases r with
  | nil => rfl
  | cons c t => simp only [List.takeWhile_cons]; simp_all

theorem dropWhile_head_false {p : Char → Bool} {r : List Char}
    (h : (match r with | [] => false | c :: _ => p c) = false) :
    r.dropWhile p = r := by
  cases r with
  | nil => rfl
  | cons c t => simp only [List.dropWhile_cons]; simp_all

theorem digitsVal_charsOfNat (n : Nat) : digitsVal (charsOfNat n) = n := by
  have key : ∀ ds : List Nat, (∀ d ∈ ds, d < 10) → ∀ a : Nat,
      (ds.map digitChar).foldl (fun a c => 10 * a + digitVal c) a =
        ds.foldl (fun a d => 10 * a + d) a := by
    intro ds
    induction ds with
    | nil => intro _ _; rfl
    | cons d t ih =>
      intro hlt a
      simp only [List.map_cons, List.foldl_cons]
      rw [digitVal_digitChar d (hlt d (by simp))]
      exact ih (fun x hx => hlt x (by simp [hx])) _
  have := key (natDigits n) (natDigits_lt_ten n) 0
  simpa [digitsVal, charsOfNat, ofDigits, ofDigits_natDigits n] using
    this.trans (ofDigits_natDigits n)

theorem parseNatChars_round (n : Nat) (rest : List Char)
    (hrest : headIsDigit rest = false) :
    parseNatChars (charsOfNat n ++ rest) = some (n, rest) := by
  have htake : (charsOfNat n ++ rest).takeWhile Char.isDigit = charsOfNat n := by
    rw [takeWhile_append_all (charsOfNat_all_digit n),
      takeWhile_head_false (by cases rest <;> simpa [headIsDigit] using hrest)]
    simp
  have hdrop : (charsOfNat n ++ rest).dropWhile Char.isDigit = rest := by
    rw [dropWhile_append_all (charsOfNat_all_digit n)]
    exact dropWhile_head_false (by cases rest <;> simpa [headIsDigit] using hrest)
  have hne : charsOfNat n ≠ [] := by
    simp only [charsOfNat, ne_eq, List.map_eq_nil_iff]
    exact natDigits_ne_nil n
  simp only [parseNatChars, htake, hdrop]
  rw [if_neg (by simpa [List.isEmpty_iff] using hne)]
  rw [digitsVal_charsOfNat]

theorem charsOfNat_head (n : Nat) :
    ∃ d t, d < 10 ∧ charsOfNat n = digitChar d :: t := by
  have hne := natDigits_ne_nil n
  cases hnd : natDigits n with
  | nil => exact absurd hnd hne
  | cons d t =>
    refine ⟨d, t.map digitChar, ?_, ?_⟩
    · exact natDigits_lt_ten n d (by rw [hnd]; simp)
    · simp [charsOfNat, hnd]

theorem digitChar_ne_dash : ∀ d, d < 10 → digitChar d ≠ '-' := by decide

theorem parseIntChars_round (n : Int) (rest : List Char)
    (hrest : headIsDigit rest = false) :
    parseIntChars (intReprChars n ++ rest) = some (n, rest) := by
  obtain ⟨d, t, hd, hht⟩ := charsOfNat_head n.natAbs
  by_cases hneg : n < 0
  · simp only [intReprChars, if_pos hneg, List.cons_append, parseIntChars,
      List.head?_cons, List.tail_cons, if_pos rfl]
    rw [parseNatChars_round _ _ hrest]
    simp only [Option.map_some']
    have h1 : -((n.natAbs : Nat) : Int) = n := by omega
    rw [h1]
    simp
  · simp only [intReprChars, if_neg hneg]
    have hcons : (charsOfNat n.natAbs ++ rest) =
        digitChar d :: (t ++ rest) := by rw [hht]; rfl
    have hnd : digitChar d ≠ '-' := digitChar_ne_dash d hd
    simp only [parseIntChars, hcons, List.head?_cons]
    rw [if_neg (by simpa using hnd)]
    rw [← hcons, parseNatChars_round _ _ hrest]
    simp only [Option.map_some']
    have h1 : ((n.natAbs : Nat) : Int) = n := by omega
    rw [h1]

theorem intReprChars_injective : Function.Injective intReprChars := by
  intro a b hab
  have ha := parseIntChars_round a [] (by rfl)
  have hb := parseIntChars_round b [] (by rfl)
  rw [List.append_nil] at ha hb
  rw [hab] at ha
  rw [ha] at hb
  simpa using hb

/-! ## JSON values. Python dict/list/str/int/float/bool/None values as an
inductive type. Floats are modelled as exact decimals `m / 10 ^ e` — the
decimal literals produced by `repr(float)` — since only their decimal
round-trip behaviour is relevant to the claims. -/

/-- Exact decimal number: value `m / 10 ^ e`. -/
structure Dec where
  m : Int
  e : Nat
deriving DecidableEq

/-- Canonical decimals carry no trailing fractional zero, matching the
shortest-form output of Python float `repr`. -/
def Dec.Canonical (d : Dec) : Prop := d.e ≠ 0 → d.m % 10 ≠ 0

instance (d : Dec) : Decidable d.Canonical := by
  unfold Dec.Canonical; infer_instance

/-- Drop trailing zero fractional digits, as `float()` conversion of a parsed
decimal literal identifies `1.50` with `1.5`. -/
def stripZeros : Int → Nat → Dec
  | m, 0 => ⟨m, 0⟩
  | m, e + 1 => if m % 10 = 0 then stripZeros (m / 10) e else ⟨m, e + 1⟩

/-- JSON value, mirroring the Python object model used by `json.dumps` and
`json.loads` in this codebase. -/
inductive JVal where
  | null
  | bool (b : Bool)
  | int (n : Int)
  | dec (d : Dec)
  | str (s : String)
  | arr (xs : List JVal)
  | obj (kvs : List (String × JVal))

/-- Whether a value is JSON null (Python `None`). -/
def JVal.isNull : JVal → Bool
  | .null => true
  | _ => false

/-- Left-pad with zero characters to width `k` (fractional digits of a
decimal are padded to the fractional length). -/
def padZeros (k : Nat) (ds : List Char) : List Char :=
  List.replicate (k - ds.length) '0' ++ ds

/-- Decimal literal characters for a `Dec`, in the plain (non-scientific)
notation Python float `repr` uses for the magnitudes occurring here; an
integral value prints a trailing `.0` exactly as `repr(float)` does. -/
def decReprChars (d : Dec) : List Char :=
  let a := d.m.natAbs
  let sign : List Char := if d.m < 0 then ['-'] else []
  if d.e = 0 then sign ++ charsOfNat a ++ ['.', '0']
  else sign ++ charsOfNat (a / 10 ^ d.e) ++
    '.' :: padZeros d.e (charsOfNat (a % 10 ^ d.e))

/-- Lowercase hexadecimal digit characters. -/
def hexChar (n : Nat) : Char :=
  if n < 10 then digitChar n else Char.ofNat (87 + n)

/-- Four lowercase hex digits, most significant first. -/
def hex4 (n : Nat) : List Char :=
  [hexChar (n / 4096 % 16), hexChar (n / 256 % 16), hexChar (n / 16 % 16),
    hexChar (n % 16)]

/-- Escape of one character under `json.dumps` defaults (`ensure_ascii`):
quote, backslash and the C0 shortcuts get two-character escapes, any other
character outside the printable ASCII range 0x20–0x7e becomes `\uXXXX`
(a surrogate pair beyond the BMP). -/
def escapeChar (c : Char) : List Char :=
  if c = '"' then ['\\', '"']
  else if c = '\\' then ['\\', '\\']
  else if c.toNat = 10 then ['\\', 'n']
  else if c.toNat = 13 then ['\\', 'r']
  else if c.toNat = 9 then ['\\', 't']
  else if c.toNat = 8 then ['\\', 'b']
  else if c.toNat = 12 then ['\\', 'f']
  else if c.toNat < 32 ∨ 126 < c.toNat then
    if c.toNat < 65536 then '\\' :: 'u' :: hex4 c.toNat
    else
      ('\\' :: 'u' :: hex4 (55296 + (c.toNat - 65536) / 1024)) ++
        ('\\' :: 'u' :: hex4 (56320 + (c.toNat - 65536) % 1024))
  else [c]

/-- Escape every character of a string body. -/
def escapeList : List Char → List Char
  | [] => []
  | c :: t => escapeChar c ++ escapeList t

mutual

/-- Model of `json.dumps(v, separators=(",", ":"))`: compact serialization,
object members in their stored order (`normalize_params` sorts beforehand;
see `sortAll`). -/
def dumpVal : JVal → List Char
  | .null => 'n' :: ['u', 'l', 'l']
  | .bool true => 't' :: ['r', 'u', 'e']
  | .bool false => 'f' :: ['a', 'l', 's', 'e']
  | .int n => intReprChars n
  | .dec d => decReprChars d
  | .str s => '"' :: (escapeList s.data ++ ['"'])
  | .arr xs => '[' :: (dumpElems xs ++ [']'])
  | .obj kvs => '{' :: (dumpMembers kvs ++ ['}'])

/-- Comma-separated serialization of array elements. -/
def dumpElems : List JVal → List Char
  | [] => []
  | [x] => dumpVal x
  | x :: xs => dumpVal x ++ ',' :: dumpElems xs

/-- Comma-separated serialization of object members (`"key":value`). -/
def dumpMembers : List (String × JVal) → List Char
  | [] => []
  | [(k, v)] => '"' :: (escapeList k.data ++ '"' :: ':' :: dumpVal v)
  | (k, v) :: kvs =>
    ('"' :: (escapeList k.data ++ '"' :: ':' :: dumpVal v)) ++ ',' :: dumpMembers kvs

end

/-! ## UTF-8 encoding (`str.encode()` on the payload before hashing, and on
the compact JSON before base64 in the cursor codec). -/

/-- UTF-8 bytes of one character. -/
def utf8Char (c : Char) : List Nat :=
  let n := c.toNat
  if n < 128 then [n]
  else if n < 2048 then [192 + n / 64, 128 + n % 64]
  else if n < 65536 then [224 + n / 4096, 128 + n / 64 % 64, 128 + n % 64]
  else [240 + n / 262144, 128 + n / 4096 % 64, 128 + n / 64 % 64, 128 + n % 64]

/-- UTF-8 bytes of a character list. -/
def utf8List : List Char → List Nat
  | [] => []
  | c :: t => utf8Char c ++ utf8List t

/-- Model of Python `s.encode()` (UTF-8). -/
def strToUtf8 (s : String) : List Nat := utf8List s.data

/-! ## SHA-1 (`hashlib.sha1`), over byte lists with 32-bit words as naturals
reduced mod `2 ^ 32`. -/

/-- Truncation to a 32-bit word. -/
def w32 (n : Nat) : Nat := n % 4294967296

/-- Left rotation of a 32-bit word by `k` bits. -/
def rotl (k n : Nat) : Nat := w32 (n * 2 ^ k + n / 2 ^ (32 - k))

/-- Big-endian byte expansion of `n` to exactly `k` bytes. -/
def bytesBE : Nat → Nat → List Nat
  | 0, _ => []
  | k + 1, n => bytesBE k (n / 256) ++ [n % 256]

/-- SHA-1 padding: `0x80`, zeros to 56 mod 64, then the 64-bit bit length. -/
def sha1Pad (msg : List Nat) : List Nat :=
  msg ++ 128 :: List.replicate ((119 - msg.length % 64) % 64) 0 ++
    bytesBE 8 (8 * msg.length)

/-- Big-endian 32-bit words from bytes (groups of four). -/
def toWords : List Nat → List Nat
  | b0 :: b1 :: b2 :: b3 :: t =>
    (b0 * 16777216 + b1 * 65536 + b2 * 256 + b3) :: toWords t
  | _ => []

/-- Message-schedule extension: append `fuel` more words, each the 1-bit
rotation of the xor of the words 3, 8, 14 and 16 positions back. -/
def sha1Extend : Nat → List Nat → List Nat
  | 0, w => w
  | fuel + 1, w =>
    sha1Extend fuel
      (w ++ [rotl 1 (w.getD (w.length - 3) 0 ^^^ w.getD (w.length - 8) 0 ^^^
        w.getD (w.length - 14) 0 ^^^ w.getD (w.length - 16) 0)])

/-- SHA-1 working state. -/
structure Sha1State where
  h0 : Nat
  h1 : Nat
  h2 : Nat
  h3 : Nat
  h4 : Nat

/-- Round function and constant for round `i`. -/
def sha1FK (i b c d : Nat) : Nat × Nat :=
  if i < 20 then ((b &&& c) ||| ((b ^^^ 4294967295) &&& d), 1518500249)
  else if i < 40 then (b ^^^ c ^^^ d, 1859775393)
  else if i < 60 then ((b &&& c) ||| (b &&& d) ||| (c &&& d), 2400959708)
  else (b ^^^ c ^^^ d, 3395469782)

/-- The 80 compression rounds over the schedule words. -/
def sha1Rounds : List Nat → Nat → Nat × Nat × Nat × Nat × Nat →
    Nat × Nat × Nat × Nat × Nat
  | [], _, s => s
  | w :: ws, i, (a, b, c, d, e) =>
    let fk := sha1FK i b c d
    sha1Rounds ws (i + 1) (w32 (rotl 5 a + fk.1 + e + fk.2 + w), a, rotl 30 b, c, d)

/-- Compression of one 64-byte block into the chaining state. -/
def sha1Block (s : Sha1State) (block : List Nat) : Sha1State :=
  let w := sha1Extend 64 (toWords block)
  let r := sha1Rounds w 0 (s.h0, s.h1, s.h2, s.h3, s.h4)
  ⟨w32 (s.h0 + r.1), w32 (s.h1 + r.2.1), w32 (s.h2 + r.2.2.1),
    w32 (s.h3 + r.2.2.2.1), w32 (s.h4 + r.2.2.2.2)⟩

/-- Fold over `n` consecutive 64-byte blocks. -/
def sha1Blocks : Nat → List Nat → Sha1State → Sha1State
  | 0, _, s => s
  | n + 1, bytes, s => sha1Blocks n (bytes.drop 64) (sha1Block s (bytes.take 64))

/-- SHA-1 digest (20 bytes) of a byte list, per `hashlib.sha1(..).digest()`. -/
def sha1 (msg : List Nat) : List Nat :=
  let padded := sha1Pad msg
  let s := sha1Blocks (padded.length / 64) padded
    ⟨1732584193, 4023233417, 2562383102, 271733878, 3285377520⟩
  bytesBE 4 s.h0 ++ bytesBE 4 s.h1 ++ bytesBE 4 s.h2 ++ bytesBE 4 s.h3 ++
    bytesBE 4 s.h4

/-- Lowercase hex characters of a byte list, per `.hexdigest()`. -/
def hexOfBytes : List Nat → List Char
  | [] => []
  | b :: t => hexChar (b / 16 % 16) :: hexChar (b % 16) :: hexOfBytes t

theorem bytesBE_length (k n : Nat) : (bytesBE k n).length = k := by
  induction k generalizing n with
  | zero => rfl
  | succ k ih => simp [bytesBE, ih]

theorem sha1_length (msg : List Nat) : (sha1 msg).length = 20 := by
  simp [sha1, bytesBE_length]

theorem hexOfBytes_length (bs : List Nat) :
    (hexOfBytes bs).length = 2 * bs.length := by
  induction bs with
  | nil => rfl
  | cons b t ih => simp [hexOfBytes, ih]; omega

theorem hexChar_ne_colon : ∀ n, n < 16 → hexChar n ≠ ':' := by decide

theorem hexOfBytes_ne_colon (bs : List Nat) :
    ∀ c ∈ hexOfBytes bs, c ≠ ':' := by
  induction bs with
  | nil => simp [hexOfBytes]
  | cons b t ih =>
    intro c hc
    simp only [hexOfBytes, List.mem_cons] at hc
    rcases hc with rfl | rfl | hc
    · exact hexChar_ne_colon _ (Nat.mod_lt _ (by norm_num))
    · exact hexChar_ne_colon _ (Nat.mod_lt _ (by norm_num))
    · exact ih c hc

/-! ## Parameter normalization and list-cache keys (src/cache.py).
A Python parameter dict is modelled as an association list with (in the
relevant theorems) pairwise-distinct keys. -/

/-- Parameter mapping: association list of names to JSON-representable
values, `JVal.null` standing for Python `None`. -/
abbrev Params := List (String × JVal)

/-- Member ordering used by `json.dumps(..., sort_keys=True)`: Python `<`
on key strings, i.e. code-point lexicographic order. -/
def keyLe (p q : String × JVal) : Prop := p.1 ≤ q.1

instance : DecidableRel keyLe := fun p q => by
  unfold keyLe; infer_instance

mutual

/-- Recursive key-sorting, the object-ordering effect of
`json.dumps(..., sort_keys=True)` factored out of serialization. -/
def sortAll : JVal → JVal
  | .arr xs => .arr (sortAllList xs)
  | .obj kvs => .obj (List.insertionSort keyLe (sortAllObj kvs))
  | v => v

/-- Key-sorting mapped over array elements. -/
def sortAllList : List JVal → List JVal
  | [] => []
  | x :: xs => sortAll x :: sortAllList xs

/-- Key-sorting mapped over member values. -/
def sortAllObj : List (String × JVal) → List (String × JVal)
  | [] => []
  | (k, v) :: kvs => (k, sortAll v) :: sortAllObj kvs

end

/-- Model of `normalize_params`: drop `None`-valued entries, then produce
the compact sorted-key JSON serialization. -/
def normalize_params (params : Params) : Params × String :=
  let clean := params.filter (fun kv => !kv.2.isNull)
  (clean, ⟨dumpVal (sortAll (.obj clean))⟩)

/-- Model of `make_list_key_with_payload`: compose
`{prefix}:v{version}:{first 16 hex chars of sha1(payload)}` and also return
the payload. -/
def make_list_key_with_payload (pre : String) (params : Params) (version : Int) :
    String × String :=
  let np := normalize_params params
  let h := (hexOfBytes (sha1 (strToUtf8 np.2))).take 16
  (pre ++ ":v" ++ ⟨intReprChars version⟩ ++ ":" ++ ⟨h⟩, np.2)

/-- Model of `make_list_key` (same key, payload discarded). -/
def make_list_key (pre : String) (params : Params) (version : Int) : String :=
  (make_list_key_with_payload pre params version).1

/-! ## Version registry (`get_cache_version` / `bump_cache_version`) over a
Redis store model. Counter values are integers because nothing but `INCR`
ever writes into the `cache:version:` namespace. -/

/-- Value held at a Redis key: a plain string, or an integer as left by
`INCR` (Redis represents integers as strings; the distinction here only
spares re-parsing). -/
inductive RedisVal where
  | rawStr (s : String)
  | rawInt (n : Int)

/-- Redis keyspace. -/
def RStore := String → Option RedisVal

/-- Integer reading of a stored value, when it is one. -/
def rvalInt : Option RedisVal → Option Int
  | some (.rawInt n) => some n
  | _ => none

/-- Key prefix `VERSION_KEY_PREFIX` of the counter namespace. -/
def VERSION_KEY_PREFIX : String := "cache:version:"

/-- Counter key for a list-type name. -/
def versionKey (name : String) : String := VERSION_KEY_PREFIX ++ name

/-- Model of `get_cache_version`: the stored counter, or 1 when unset. -/
def get_cache_version (name : String) (st : RStore) : Int :=
  (rvalInt (st (versionKey name))).getD 1

/-- Model of `bump_cache_version`: Redis `INCR` — an absent key is treated
as 0, incremented atomically, and the post-increment value is returned. -/
def bump_cache_version (name : String) (st : RStore) : Int × RStore :=
  let v := (rvalInt (st (versionKey name))).getD 0 + 1
  (v, fun k => if k = versionKey name then some (.rawInt v) else st k)

/-! ## List-cache entries with the parameter-payload guard. Stored values
are viewed at the `JVal` level (`cache_list` serializes with `json.dumps`
and `get_list` parses back; the serializer/parser round-trip is proved
below for `dumpVal`/`parseVal`). -/

/-- Cache keyspace at the JSON-value level. -/
def JStore := String → Option JVal

/-- First-match association lookup, the model of Python `dict.get` (dict
keys are unique). -/
def jlookup (kvs : List (String × JVal)) (key : String) : Option JVal :=
  match kvs with
  | [] => none
  | (k, v) :: t => if k = key then some v else jlookup t key

/-- Model of `get_list`. -/
def get_list (key : String) (st : JStore) : Option JVal := st key

/-- Model of `cache_list`. -/
def cache_list (key : String) (data : JVal) (st : JStore) : JStore :=
  fun k => if k = key then some data else st k

/-- Model of `cache_list_with_params`: wrap the data with the normalized
parameter payload. -/
def cache_list_with_params (key : String) (data : JVal) (payload : String)
    (st : JStore) : JStore :=
  cache_list key (.obj [("data", data), ("_params", .str payload)]) st

/-- Model of `get_list_with_params`: unwrap only when the embedded
`_params` string equals the expected payload; else a miss. -/
def get_list_with_params (key : String) (expected : String) (st : JStore) :
    Option JVal :=
  match get_list key st with
  | some (.obj kvs) =>
    match jlookup kvs "_params" with
    | some (.str p) => if p = expected then jlookup kvs "data" else none
    | _ => none
  | _ => none

/-! ## Entity keys and the invalidation/bump effect traces of the mutation
endpoints (src/cache.py invalidators; src/routers/book.py,
src/routers/author.py, src/routers/review.py handlers). Each trace lists,
in program order, the relational commit and the cache operations the
handler's success path performs. -/

/-- Key `book:{id}`. -/
def make_book_key (bookId : Int) : String := "book:" ++ ⟨intReprChars bookId⟩

/-- Key `author:{id}`. -/
def make_author_key (authorId : Int) : String :=
  "author:" ++ ⟨intReprChars authorId⟩

/-- Key `author:{id}:books`. -/
def make_author_books_key (authorId : Int) : String :=
  "author:" ++ ⟨intReprChars authorId⟩ ++ ":books"

/-- Key `book:{id}:reviews`. -/
def make_reviews_key (bookId : Int) : String :=
  "book:" ++ ⟨intReprChars bookId⟩ ++ ":reviews"

/-- Key `book:{id}:authors` (deleted by `invalidate_book`). -/
def book_authors_key (bookId : Int) : String :=
  "book:" ++ ⟨intReprChars bookId⟩ ++ ":authors"

/-- One observable step of a mutation handler: the relational commit, a
single-key cache delete, or a version bump. -/
inductive CacheOp where
  | commit
  | del (key : String)
  | bump (name : String)
deriving DecidableEq

/-- Whether a step is the relational commit. -/
def CacheOp.isCommit : CacheOp → Bool
  | .commit => true
  | _ => false

/-- Steps of `invalidate_book`: three per-key deletes. -/
def invalidate_book_ops (bookId : Int) : List CacheOp :=
  [.del (make_book_key bookId), .del (make_reviews_key bookId),
    .del (book_authors_key bookId)]

/-- Steps of `invalidate_author`: delete the author entry, then the entity
and review keys of the related books (the explicit `book_ids` argument, or
the `smembers` fallback read when it is empty), then the membership key. -/
def invalidate_author_ops (authorId : Int) (bookIds smembers : List Int) :
    List CacheOp :=
  let related := if bookIds.isEmpty then smembers else bookIds
  .del (make_author_key authorId) ::
    (related.flatMap fun b => [.del (make_book_key b), .del (make_reviews_key b)]) ++
      [.del (make_author_books_key authorId)]

/-- Success-path trace of `POST /books/` (`create_book`). -/
def create_book_ops (newBookId : Int) (authorIds : List Int) : List CacheOp :=
  .commit :: .bump "books:list" ::
    (authorIds.flatMap fun aid => invalidate_author_ops aid [newBookId] [])

/-- Success-path trace of `POST /books/{id}/reviews` (`create_review`). -/
def create_review_ops (bookId : Int) (authorIds : List Int) : List CacheOp :=
  .commit ::
    ((authorIds.flatMap fun aid => invalidate_author_ops aid [bookId] []) ++
      invalidate_book_ops bookId)

/-- Success-path trace of `PUT /books/{id}` (`replace_book`). -/
def replace_book_ops (bookId : Int) (affectedAuthorIds : List Int) :
    List CacheOp :=
  .commit ::
    ((affectedAuthorIds.flatMap fun aid => invalidate_author_ops aid [bookId] []) ++
      invalidate_book_ops bookId ++ [.bump "books:list"])

/-- Success-path trace of `PUT /books/{id}/authors` (`update_author_list`). -/
def update_author_list_ops (bookId : Int) (affectedAuthorIds : List Int) :
    List CacheOp :=
  .commit ::
    ((affectedAuthorIds.flatMap fun aid => invalidate_author_ops aid [bookId] []) ++
      invalidate_book_ops bookId ++ [.bump "books:list"])

/-- Success-path trace of `PATCH /books/{id}` (`update_book`). -/
def update_book_ops (bookId : Int) : List CacheOp :=
  .commit :: (invalidate_book_ops bookId ++ [.bump "books:list"])

/-- Success-path trace of `DELETE /books/{id}` (`delete_book`). -/
def delete_book_ops (bookId : Int) (authorIds : List Int) : List CacheOp :=
  .commit ::
    ((authorIds.flatMap fun aid => invalidate_author_ops aid [bookId] []) ++
      invalidate_book_ops bookId ++ [.bump "books:list"])

/-- Success-path trace of `POST /authors/` (`create_author`). -/
def create_author_ops (newAuthorId : Int) (bookIds : List Int) : List CacheOp :=
  .commit ::
    ((if bookIds.isEmpty then []
      else invalidate_author_ops newAuthorId bookIds [] ++ [.bump "books:list"]) ++
      [.bump "authors:list"])

/-- Success-path trace of `PUT /authors/{id}` (`replace_author`). -/
def replace_author_ops (authorId : Int) (affectedBookIds smembers : List Int) :
    List CacheOp :=
  .commit ::
    (invalidate_author_ops authorId affectedBookIds smembers ++
      [.bump "authors:list"] ++
      (if affectedBookIds.isEmpty then [] else [.bump "books:list"]))

/-- Success-path trace of `PATCH /authors/{id}` (`update_author`). -/
def update_author_ops (authorId : Int) (affectedBookIds smembers : List Int) :
    List CacheOp :=
  .commit ::
    (invalidate_author_ops authorId affectedBookIds smembers ++
      [.bump "authors:list"] ++
      (if affectedBookIds.isEmpty then [] else [.bump "books:list"]))

/-- Success-path trace of `DELETE /authors/{id}` (`del_author`). -/
def del_author_ops (authorId : Int) (bookIds smembers : List Int) : List CacheOp :=
  .commit ::
    (invalidate_author_ops authorId bookIds smembers ++
      [.bump "authors:list"] ++
      (if bookIds.isEmpty then [] else [.bump "books:list"]))

/-- Success-path trace of `DELETE /reviews/{id}` (`delete_review`). -/
def delete_review_ops (bookId : Int) : List CacheOp :=
  .commit :: invalidate_book_ops bookId

/-- Steps strictly after the relational commit. -/
def afterCommit (ops : List CacheOp) : List CacheOp :=
  (ops.dropWhile fun o => !o.isCommit).drop 1

/-- Effect of one step on the Redis keyspace (the commit itself does not
touch the cache). -/
def applyOp (st : RStore) : CacheOp → RStore
  | .commit => st
  | .del k => fun k2 => if k2 = k then none else st k2
  | .bump name => (bump_cache_version name st).2

/-- Effect of a whole trace. -/
def applyOps (ops : List CacheOp) (st : RStore) : RStore :=
  ops.foldl applyOp st

/-! ## Support lemmas about traces and the keyspace. -/

theorem ne_of_data_head {s t : String} {c d : Char} {l1 l2 : List Char}
    (hs : s.data = c :: l1) (ht : t.data = d :: l2) (hcd : c ≠ d) : s ≠ t := by
  intro h
  subst h
  rw [hs] at ht
  injection ht with h1 _
  exact hcd h1

theorem append_data_head (a x : String) {c : Char} {t : List Char}
    (h : a.data = c :: t) : (a ++ x).data = c :: (t ++ x.data) := by
  rw [String.data_append, h]
  rfl

theorem versionKey_data (name : String) :
    (versionKey name).data = 'c' :: ("ache:version:".data ++ name.data) :=
  append_data_head _ _ rfl

theorem make_book_key_ne_versionKey (b : Int) (name : String) :
    make_book_key b ≠ versionKey name :=
  ne_of_data_head (append_data_head "book:" _ rfl) (versionKey_data name)
    (by decide)

theorem make_reviews_key_ne_versionKey (b : Int) (name : String) :
    make_reviews_key b ≠ versionKey name :=
  ne_of_data_head
    (by
      show ("book:" ++ ⟨intReprChars b⟩ ++ ":reviews").data = _
      rw [String.append_assoc]
      exact append_data_head "book:" _ rfl)
    (versionKey_data name) (by decide)

theorem book_authors_key_ne_versionKey (b : Int) (name : String) :
    book_authors_key b ≠ versionKey name :=
  ne_of_data_head
    (by
      show ("book:" ++ ⟨intReprChars b⟩ ++ ":authors").data = _
      rw [String.append_assoc]
      exact append_data_head "book:" _ rfl)
    (versionKey_data name) (by decide)

theorem make_author_key_ne_versionKey (a : Int) (name : String) :
    make_author_key a ≠ versionKey name :=
  ne_of_data_head (append_data_head "author:" _ rfl) (versionKey_data name)
    (by decide)

theorem make_author_books_key_ne_versionKey (a : Int) (name : String) :
    make_author_books_key a ≠ versionKey name :=
  ne_of_data_head
    (by
      show ("author:" ++ ⟨intReprChars a⟩ ++ ":books").data = _
      rw [String.append_assoc]
      exact append_data_head "author:" _ rfl)
    (versionKey_data name) (by decide)

/-- A trace of commits and deletes away from a key leaves that key alone. -/
theorem applyOps_preserves (name : String) :
    ∀ (ops : List CacheOp) (st : RStore),
      (∀ op ∈ ops, (match op with
        | .commit => True
        | .del k => k ≠ versionKey name
        | .bump _ => False)) →
      applyOps ops st (versionKey name) = st (versionKey name) := by
  intro ops
  induction ops with
  | nil => intro st _; rfl
  | cons op t ih =>
    intro st h
    have hop := h op (by simp)
    have ht : ∀ o ∈ t, (match o with
        | .commit => True
        | .del k => k ≠ versionKey name
        | .bump _ => False) :=
      fun o ho => h o (List.mem_cons_of_mem _ ho)
    cases op with
    | commit => exact ih st ht
    | del k =>
      simp only [applyOps, List.foldl_cons] at *
      rw [ih _ ht]
      simp only [applyOp]
      rw [if_neg ?_]
      have hk : k ≠ versionKey name := by simpa using hop
      exact fun hc => hk hc.symm
    | bump nm => exact absurd hop (by simp)

/-- Every step of `invalidate_book` is a delete of one of the book's three
keys. -/
theorem invalidate_book_ops_shape (b : Int) :
    ∀ op ∈ invalidate_book_ops b, ∃ k, op = .del k ∧
      (k = make_book_key b ∨ k = make_reviews_key b ∨ k = book_authors_key b) := by
  intro op hop
  simp only [invalidate_book_ops, List.mem_cons, List.mem_singleton,
    List.not_mem_nil, or_false] at hop
  rcases hop with rfl | rfl | rfl
  · exact ⟨_, rfl, Or.inl rfl⟩
  · exact ⟨_, rfl, Or.inr (Or.inl rfl)⟩
  · exact ⟨_, rfl, Or.inr (Or.inr rfl)⟩

/-- Every step of `invalidate_author` is a delete of the author's keys or of
a related book's entity/review keys. -/
theorem invalidate_author_ops_shape (a : Int) (bids sm : List Int) :
    ∀ op ∈ invalidate_author_ops a bids sm, ∃ k, op = .del k ∧
      (k = make_author_key a ∨ k = make_author_books_key a ∨
        ∃ b ∈ (if bids.isEmpty then sm else bids),
          k = make_book_key b ∨ k = make_reviews_key b) := by
  intro op hop
  simp only [invalidate_author_ops, List.mem_cons, List.mem_append,
    List.mem_flatMap, List.mem_singleton, List.not_mem_nil, or_false] at hop
  rcases hop with (rfl | ⟨b, hb, rfl | rfl⟩) | rfl
  · exact ⟨_, rfl, Or.inl rfl⟩
  · exact ⟨_, rfl, Or.inr (Or.inr ⟨b, hb, Or.inl rfl⟩)⟩
  · exact ⟨_, rfl, Or.inr (Or.inr ⟨b, hb, Or.inr rfl⟩)⟩
  · exact ⟨_, rfl, Or.inr (Or.inl rfl)⟩

theorem afterCommit_commit_cons (rest : List CacheOp) :
    afterCommit (.commit :: rest) = rest := by
  simp [afterCommit, List.dropWhile_cons, CacheOp.isCommit]

/-- Every step of `create_review` is the commit or a delete of one of the
book's keys or its authors' keys. -/
theorem create_review_ops_shape (bookId : Int) (aids : List Int) :
    ∀ op ∈ create_review_ops bookId aids, op = .commit ∨ ∃ k, op = .del k ∧
      (k = make_book_key bookId ∨ k = make_reviews_key bookId ∨
        k = book_authors_key bookId ∨
        ∃ aid ∈ aids, k = make_author_key aid ∨ k = make_author_books_key aid) := by
  intro op hop
  simp only [create_review_ops, List.mem_cons, List.mem_append,
    List.mem_flatMap] at hop
  rcases hop with rfl | ⟨aid, haid, hin⟩ | hb
  · exact Or.inl rfl
  · obtain ⟨k, rfl, hk⟩ := invalidate_author_ops_shape aid [bookId] [] op hin
    refine Or.inr ⟨k, rfl, ?_⟩
    rcases hk with rfl | rfl | ⟨b, hb, hk⟩
    · exact Or.inr (Or.inr (Or.inr ⟨aid, haid, Or.inl rfl⟩))
    · exact Or.inr (Or.inr (Or.inr ⟨aid, haid, Or.inr rfl⟩))
    · have hb1 : b = bookId := by simpa using hb
      subst hb1
      rcases hk with rfl | rfl
      · exact Or.inl rfl
      · exact Or.inr (Or.inl rfl)
  · obtain ⟨k, rfl, hk⟩ := invalidate_book_ops_shape bookId op hb
    exact Or.inr ⟨k, rfl, by tauto⟩

/-- Every step of `delete_review` is the commit or a delete of one of the
book's three keys. -/
theorem delete_review_ops_shape (bookId : Int) :
    ∀ op ∈ delete_review_ops bookId, op = .commit ∨ ∃ k, op = .del k ∧
      (k = make_book_key bookId ∨ k = make_reviews_key bookId ∨
        k = book_authors_key bookId) := by
  intro op hop
  simp only [delete_review_ops, List.mem_cons] at hop
  rcases hop with rfl | hb
  · exact Or.inl rfl
  · obtain ⟨k, rfl, hk⟩ := invalidate_book_ops_shape bookId op hb
    exact Or.inr ⟨k, rfl, hk⟩

/-! ## Claims C2, C3, C9, C10. -/

/-- C2 counterexample: at the explicit empty keyspace (no counter stored),
`get_cache_version "books:list"` returns 1 but the immediately following
`bump_cache_version "books:list"` returns 1 — not the claimed `v + 1 = 2` —
and a subsequent `get_cache_version` still returns 1, so the observable
version does not change across the first bump. -/
theorem C2_counterexample :
    get_cache_version "books:list" (fun _ => none) = 1 ∧
    (bump_cache_version "books:list" (fun _ => none)).1 ≠
      get_cache_version "books:list" (fun _ => none) + 1 ∧
    get_cache_version "books:list"
      (bump_cache_version "books:list" (fun _ => none)).2 =
      get_cache_version "books:list" (fun _ => none) := by
  refine ⟨rfl, by decide, ?_⟩
  simp [get_cache_version, bump_cache_version, rvalInt]

/-- C2 (amended): `get_cache_version` returns the stored counter, or 1 when
none is stored; `bump_cache_version` is an atomic increment that treats an
absent counter as 0 and returns the post-increment value. Hence when the
counter is stored with value `v`, a bump after a get returning `v` returns
`v + 1` and a subsequent get returns `v + 1`; but the first bump of an
absent counter returns 1 while get returned 1 both before and after it, so
that first bump does not change the observable version. -/
theorem C2_theorem (name : String) (st : RStore) :
    (st (versionKey name) = none →
      get_cache_version name st = 1 ∧
      (bump_cache_version name st).1 = 1 ∧
      get_cache_version name (bump_cache_version name st).2 = 1) ∧
    (∀ v : Int, st (versionKey name) = some (.rawInt v) →
      get_cache_version name st = v ∧
      (bump_cache_version name st).1 = v + 1 ∧
      get_cache_version name (bump_cache_version name st).2 = v + 1) := by
  constructor
  · intro h
    refine ⟨?_, ?_, ?_⟩ <;>
      simp [get_cache_version, bump_cache_version, rvalInt, h]
  · intro v h
    refine ⟨?_, ?_, ?_⟩ <;>
      simp [get_cache_version, bump_cache_version, rvalInt, h]

/-- C2 witness: the amended theorem applied at the empty keyspace. -/
theorem C2_witness :
    get_cache_version "books:list"
      (bump_cache_version "books:list" (fun _ => none)).2 = 1 :=
  (( C2_theorem "books:list" (fun _ => none)).1 rfl).2.2

/-- C3: every mutation endpoint of a listed entity bumps that entity type's
list version counter after its relational commit — the five book mutation
endpoints (`create_book`, `replace_book`, `update_author_list`,
`update_book`, `delete_book`) bump `books:list`, and the four author
mutation endpoints (`create_author`, `replace_author`, `update_author`,
`del_author`) bump `authors:list`, in every case after the commit step. -/
theorem C3_theorem :
    (∀ newId aids, CacheOp.bump "books:list" ∈
      afterCommit (create_book_ops newId aids)) ∧
    (∀ bid aff, CacheOp.bump "books:list" ∈
      afterCommit (replace_book_ops bid aff)) ∧
    (∀ bid aff, CacheOp.bump "books:list" ∈
      afterCommit (update_author_list_ops bid aff)) ∧
    (∀ bid, CacheOp.bump "books:list" ∈ afterCommit (update_book_ops bid)) ∧
    (∀ bid aids, CacheOp.bump "books:list" ∈
      afterCommit (delete_book_ops bid aids)) ∧
    (∀ aid bids, CacheOp.bump "authors:list" ∈
      afterCommit (create_author_ops aid bids)) ∧
    (∀ aid aff sm, CacheOp.bump "authors:list" ∈
      afterCommit (replace_author_ops aid aff sm)) ∧
    (∀ aid aff sm, CacheOp.bump "authors:list" ∈
      afterCommit (update_author_ops aid aff sm)) ∧
    (∀ aid bids sm, CacheOp.bump "authors:list" ∈
      afterCommit (del_author_ops aid bids sm)) := by
  refine ⟨?_, ?_, ?_, ?_, ?_, ?_, ?_, ?_, ?_⟩ <;>
    intros <;>
    simp [create_book_ops, replace_book_ops, update_author_list_ops,
      update_book_ops, delete_book_ops, create_author_ops, replace_author_ops,
      update_author_ops, del_author_ops, afterCommit_commit_cons]

/-- C9: the cached-list payload guard never returns mismatched data —
`get_list_with_params key expected st` returns `some v` exactly when the
store holds at `key` an object whose `_params` member is the string
`expected` and whose `data` member is `v`; a payload mismatch, an absent
entry, or any entry without the wrapper shape reads as a miss (`none`), and
a value stored by `cache_list_with_params` under its own payload is
returned intact. -/
theorem C9_theorem (key expected : String) (st : JStore) :
    (∀ v, get_list_with_params key expected st = some v ↔
      ∃ kvs, st key = some (.obj kvs) ∧
        jlookup kvs "_params" = some (.str expected) ∧
        jlookup kvs "data" = some v) ∧
    (∀ kvs p, st key = some (.obj kvs) →
      jlookup kvs "_params" = some (.str p) → p ≠ expected →
      get_list_with_params key expected st = none) ∧
    (st key = none → get_list_with_params key expected st = none) ∧
    (∀ data payload st2,
      get_list_with_params key payload (cache_list_with_params key data payload st2)
        = some data) := by
  refine ⟨?_, ?_, ?_, ?_⟩
  · intro v
    cases hk : st key with
    | none => simp [get_list_with_params, get_list, hk]
    | some val =>
      cases val
      case obj kvs =>
        cases hp : jlookup kvs "_params" with
        | none => simp [get_list_with_params, get_list, hk, hp]
        | some pv =>
          cases pv
          case str p =>
            by_cases hpe : p = expected
            · subst hpe
              simp [get_list_with_params, get_list, hk, hp]
            · simp [get_list_with_params, get_list, hk, hp, hpe]
          all_goals simp [get_list_with_params, get_list, hk, hp]
      all_goals simp [get_list_with_params, get_list, hk]
  · intro kvs p hk hp hpe
    simp [get_list_with_params, get_list, hk, hp, hpe]
  · intro hk
    simp [get_list_with_params, get_list, hk]
  · intro data payload st2
    simp [get_list_with_params, get_list, cache_list_with_params, cache_list,
      jlookup]

/-- C9 witness: a wrapper stored under payload `"A"` but requested with
payload `"B"` reads as a miss. -/
theorem C9_witness :
    get_list_with_params "k" "B"
      (cache_list_with_params "k" (.int 1) "A" (fun _ => none)) = none :=
  ( C9_theorem "k" "B"
    (cache_list_with_params "k" (.int 1) "A" (fun _ => none))).2.1
    [("data", .int 1), ("_params", .str "A")] "A" rfl rfl (by decide)

/-- C10: creating or deleting a review never bumps a list version counter —
after either success trace every key of the `cache:version:` namespace
holds the same value as before — and the traces' only cache effects are
per-key deletes of the affected book's entity/fragment keys (plus, for
review creation, its authors' keys). -/
theorem C10_theorem :
    (∀ (bookId : Int) (aids : List Int) (st : RStore) (name : String),
      applyOps (create_review_ops bookId aids) st (versionKey name) =
        st (versionKey name)) ∧
    (∀ (bookId : Int) (st : RStore) (name : String),
      applyOps (delete_review_ops bookId) st (versionKey name) =
        st (versionKey name)) ∧
    (∀ (bookId : Int) (aids : List Int), ∀ op ∈ create_review_ops bookId aids,
      op = .commit ∨ ∃ k, op = .del k ∧
        (k = make_book_key bookId ∨ k = make_reviews_key bookId ∨
          k = book_authors_key bookId ∨
          ∃ aid ∈ aids, k = make_author_key aid ∨ k = make_author_books_key aid)) ∧
    (∀ bookId : Int, ∀ op ∈ delete_review_ops bookId,
      op = .commit ∨ ∃ k, op = .del k ∧
        (k = make_book_key bookId ∨ k = make_reviews_key bookId ∨
          k = book_authors_key bookId)) := by
  refine ⟨?_, ?_, create_review_ops_shape, delete_review_ops_shape⟩
  · intro bookId aids st name
    refine applyOps_preserves name _ st ?_
    intro op hop
    rcases create_review_ops_shape bookId aids op hop with rfl | ⟨k, rfl, hk⟩
    · trivial
    · show k ≠ versionKey name
      rcases hk with rfl | rfl | rfl | ⟨aid, _, rfl | rfl⟩
      · exact make_book_key_ne_versionKey _ _
      · exact make_reviews_key_ne_versionKey _ _
      · exact book_authors_key_ne_versionKey _ _
      · exact make_author_key_ne_versionKey _ _
      · exact make_author_books_key_ne_versionKey _ _
  · intro bookId st name
    refine applyOps_preserves name _ st ?_
    intro op hop
    rcases delete_review_ops_shape bookId op hop with rfl | ⟨k, rfl, hk⟩
    · trivial
    · show k ≠ versionKey name
      rcases hk with rfl | rfl | rfl
      · exact make_book_key_ne_versionKey _ _
      · exact make_reviews_key_ne_versionKey _ _
      · exact book_authors_key_ne_versionKey _ _

/-- C10 witness: the shape clause applied to a concrete step of a concrete
`create_review` trace. -/
theorem C10_witness :
    CacheOp.del (make_book_key 1) = CacheOp.commit ∨
      ∃ k, CacheOp.del (make_book_key 1) = CacheOp.del k ∧
        (k = make_book_key 1 ∨ k = make_reviews_key 1 ∨
          k = book_authors_key 1 ∨
          ∃ aid ∈ [(2 : Int)],
            k = make_author_key aid ∨ k = make_author_books_key aid) :=
  C10_theorem.2.2.1 1 [2] (.del (make_book_key 1)) (by decide)

/-! ## Claims C4 and C5: key determinism/version separation and
normalization idempotence/insensitivity. -/

/-- Strict member ordering by key; antisymmetric for trivial reasons, which
is what pins down a sorted association list with distinct keys. -/
def keyLt (p q : String × JVal) : Prop := p.1 < q.1

instance : IsAntisymm (String × JVal) keyLt :=
  ⟨fun a b hab hba => absurd hab (lt_asymm hba)⟩

instance : IsTotal (String × JVal) keyLe := ⟨fun a b => le_total a.1 b.1⟩

instance : IsTrans (String × JVal) keyLe := ⟨fun _ _ _ hab hbc => le_trans hab hbc⟩

theorem sortAllObj_eq_map (l : List (String × JVal)) :
    sortAllObj l = l.map (fun kv => (kv.1, sortAll kv.2)) := by
  induction l with
  | nil => rfl
  | cons kv t ih =>
    cases kv
    simp [sortAllObj, ih]

/-- Two permuted member lists with pairwise-distinct keys sort to the same
list. -/
theorem insertionSort_keyLe_eq_of_perm (A B : List (String × JVal))
    (hperm : A.Perm B) (hnd : (A.map Prod.fst).Nodup) :
    List.insertionSort keyLe A = List.insertionSort keyLe B := by
  have hndB : (B.map Prod.fst).Nodup := ((hperm.map Prod.fst).nodup_iff).mp hnd
  have hpermAB : (List.insertionSort keyLe A).Perm (List.insertionSort keyLe B) :=
    ((List.perm_insertionSort keyLe A).trans hperm).trans
      (List.perm_insertionSort keyLe B).symm
  have hsortedLt : ∀ (L : List (String × JVal)), (L.map Prod.fst).Nodup →
      List.Sorted keyLt (List.insertionSort keyLe L) := by
    intro L hL
    have hle : List.Sorted keyLe (List.insertionSort keyLe L) :=
      List.sorted_insertionSort keyLe L
    have hndL : ((List.insertionSort keyLe L).map Prod.fst).Nodup :=
      (((List.perm_insertionSort keyLe L).map Prod.fst).nodup_iff).mpr hL
    have hne : (List.insertionSort keyLe L).Pairwise (fun p q => p.1 ≠ q.1) :=
      (List.pairwise_map).mp hndL
    exact (hle.and hne).imp (fun h => lt_of_le_of_ne h.1 h.2)
  exact List.eq_of_perm_of_sorted hpermAB (hsortedLt A hnd) (hsortedLt B hndB)

/-- C5: parameter normalization removes exactly the null-valued entries; it
is idempotent (normalizing the cleaned mapping again gives the same byte
string); and any two mappings whose non-null entries agree up to order — in
particular mappings differing only in key order or in explicit-null versus
omitted entries — with distinct keys serialize byte-identically. -/
theorem C5_theorem (P : Params) :
    ((normalize_params P).1 = P.filter (fun kv => !kv.2.isNull)) ∧
    ((normalize_params (normalize_params P).1).2 = (normalize_params P).2) ∧
    (∀ Q : Params,
      (P.filter (fun kv => !kv.2.isNull)).Perm (Q.filter (fun kv => !kv.2.isNull)) →
      ((P.filter (fun kv => !kv.2.isNull)).map Prod.fst).Nodup →
      (normalize_params P).2 = (normalize_params Q).2) := by
  refine ⟨rfl, ?_, ?_⟩
  · show (⟨dumpVal (sortAll (.obj ((P.filter fun kv => !kv.2.isNull).filter
      fun kv => !kv.2.isNull)))⟩ : String) = _
    rw [List.filter_eq_self.mpr (fun kv hkv => (List.mem_filter.mp hkv).2)]
    rfl
  · intro Q hperm hnd
    show (⟨dumpVal (sortAll (.obj (P.filter fun kv => !kv.2.isNull)))⟩ : String) =
      ⟨dumpVal (sortAll (.obj (Q.filter fun kv => !kv.2.isNull)))⟩
    have hs : ∀ R : Params, sortAll (.obj R) =
        .obj (List.insertionSort keyLe (sortAllObj R)) := fun R => rfl
    rw [hs, hs, sortAllObj_eq_map, sortAllObj_eq_map,
      insertionSort_keyLe_eq_of_perm _ _ (hperm.map _) ?_]
    rw [List.map_map]
    simpa using hnd

/-- Lowercase hexadecimal digit predicate (the alphabet of `hexdigest`). -/
def isLowerHexDigit (c : Char) : Prop := c.isDigit = true ∨ ('a' ≤ c ∧ c ≤ 'f')

instance (c : Char) : Decidable (isLowerHexDigit c) := by
  unfold isLowerHexDigit; infer_instance

theorem hexChar_isLowerHex : ∀ n, n < 16 → isLowerHexDigit (hexChar n) := by decide

theorem hexOfBytes_isLowerHex (bs : List Nat) :
    ∀ c ∈ hexOfBytes bs, isLowerHexDigit c := by
  induction bs with
  | nil => simp [hexOfBytes]
  | cons b t ih =>
    intro c hc
    simp only [hexOfBytes, List.mem_cons] at hc
    rcases hc with rfl | rfl | hc
    · exact hexChar_isLowerHex _ (Nat.mod_lt _ (by norm_num))
    · exact hexChar_isLowerHex _ (Nat.mod_lt _ (by norm_num))
    · exact ih c hc

theorem key_data (pre : String) (V : Int) (hx : List Char) :
    (pre ++ ":v" ++ (⟨intReprChars V⟩ : String) ++ ":" ++ (⟨hx⟩ : String)).data =
      pre.data ++ ':' :: 'v' :: (intReprChars V ++ ':' :: hx) := by
  simp [String.data_append]

/-- C4: list cache key building is deterministic and version-separating —
building twice yields the same key; two parameter maps normalizing to the
same payload yield the same key at the same version; keys built at distinct
versions are never equal; and the key is
`{prefix}:v{version}:{sixteen lowercase hex chars}`. -/
theorem C4_theorem (pre : String) (P : Params) (V : Int) :
    (make_list_key_with_payload pre P V = make_list_key_with_payload pre P V) ∧
    (∀ P2, (normalize_params P).2 = (normalize_params P2).2 →
      (make_list_key_with_payload pre P V).1 =
        (make_list_key_with_payload pre P2 V).1) ∧
    (∀ V2, V ≠ V2 →
      (make_list_key_with_payload pre P V).1 ≠
        (make_list_key_with_payload pre P V2).1) ∧
    (∃ h : String, h.data.length = 16 ∧ (∀ c ∈ h.data, isLowerHexDigit c) ∧
      (make_list_key_with_payload pre P V).1 =
        pre ++ ":v" ++ (⟨intReprChars V⟩ : String) ++ ":" ++ h) := by
  refine ⟨rfl, ?_, ?_, ?_⟩
  · intro P2 hpay
    show pre ++ ":v" ++ _ ++ ":" ++
        (⟨(hexOfBytes (sha1 (strToUtf8 (normalize_params P).2))).take 16⟩ : String) = _
    rw [hpay]
    rfl
  · intro V2 hV hk
    have hk2 : pre ++ ":v" ++ (⟨intReprChars V⟩ : String) ++ ":" ++
        (⟨(hexOfBytes (sha1 (strToUtf8 (normalize_params P).2))).take 16⟩ : String) =
        pre ++ ":v" ++ (⟨intReprChars V2⟩ : String) ++ ":" ++
        (⟨(hexOfBytes (sha1 (strToUtf8 (normalize_params P).2))).take 16⟩ : String) := hk
    have hd := congrArg String.data hk2
    rw [key_data, key_data] at hd
    have hd2 := List.append_cancel_left hd
    injection hd2 with h1 hd3
    injection hd3 with h2 hd4
    have p1 := parseIntChars_round V
      (':' :: (hexOfBytes (sha1 (strToUtf8 (normalize_params P).2))).take 16) rfl
    have p2 := parseIntChars_round V2
      (':' :: (hexOfBytes (sha1 (strToUtf8 (normalize_params P).2))).take 16) rfl
    rw [hd4] at p1
    have := p1.symm.trans p2
    injection this with hpair
    injection hpair with hVV _
    exact hV hVV
  · refine ⟨⟨(hexOfBytes (sha1 (strToUtf8 (normalize_params P).2))).take 16⟩,
      ?_, ?_, rfl⟩
    · show ((hexOfBytes (sha1 (strToUtf8 (normalize_params P).2))).take 16).length = 16
      rw [List.length_take, hexOfBytes_length, sha1_length]
      omega
    · intro c hc
      exact hexOfBytes_isLowerHex _ c (List.take_subset _ _ hc)

/-- C4 witness: the version-separation clause at version 1 versus 2
with concrete parameters. -/
theorem C4_witness :
    (make_list_key_with_payload "books:list" [("limit", .int 20)] 1).1 ≠
      (make_list_key_with_payload "books:list" [("limit", .int 20)] 2).1 :=
  ( C4_theorem "books:list" [("limit", .int 20)] 1).2.2.1 2 (by decide)

/-- C5 witness: key order and explicit-null versus omitted entries do not
change the serialized payload. -/
theorem C5_witness :
    (normalize_params [("b", .int 2), ("a", .str "x"), ("c", .null)]).2 =
      (normalize_params [("a", .str "x"), ("b", .int 2)]).2 :=
  (C5_theorem [("b", .int 2), ("a", .str "x"), ("c", .null)]).2.2
    [("a", .str "x"), ("b", .int 2)]
    (by exact List.Perm.swap ("a", JVal.str "x") ("b", JVal.int 2) [])
    (by decide)

/-! ## Claim C1: keyset pagination of `GET /books/` with primary sort
`by_similarity` (src/routers/book.py lines 117-198). Scores live in an
arbitrary linear order, standing for the SQL floats of `total_score`; rows
carry the primary-key id used as tie-break. -/

/-- Modelled from the spec: `SortDirection` of src/schemas/book.py — that
file in src/ lacks the sort-control declarations which src/routers/book.py
and src/dependencies.py import; the spec's sort specification is an ordered
list of `field:direction` pairs with directions `asc`/`desc`. -/
inductive SortDirection where
  | asc
  | desc
deriving DecidableEq

/-- One ranked candidate row: entity id and computed `total_score`. -/
structure Row (α : Type) where
  id : Int
  score : α
deriving DecidableEq

variable {α : Type} [LinearOrder α]

/-- Strict `ORDER BY` ordering of the ranked query: primary `total_score`
in the requested direction, ties broken by `Book.id` ascending. -/
def rowLt (d : SortDirection) (r1 r2 : Row α) : Prop :=
  match d with
  | .desc => r2.score < r1.score ∨ (r1.score = r2.score ∧ r1.id < r2.id)
  | .asc => r1.score < r2.score ∨ (r1.score = r2.score ∧ r1.id < r2.id)

/-- Reflexive companion of `rowLt` (total even on duplicate ids). -/
def rowLe (d : SortDirection) (r1 r2 : Row α) : Prop :=
  match d with
  | .desc => r2.score < r1.score ∨ (r1.score = r2.score ∧ r1.id ≤ r2.id)
  | .asc => r1.score < r2.score ∨ (r1.score = r2.score ∧ r1.id ≤ r2.id)

instance (d : SortDirection) : @DecidableRel (Row α) (rowLt d) := fun r1 r2 => by
  cases d <;> (unfold rowLt; infer_instance)

instance (d : SortDirection) : @DecidableRel (Row α) (rowLe d) := fun r1 r2 => by
  cases d <;> (unfold rowLe; infer_instance)

instance (d : SortDirection) : IsTotal (Row α) (rowLe d) := by
  constructor
  intro a b
  cases d <;> unfold rowLe <;>
    rcases lt_trichotomy a.score b.score with h | h | h <;>
    rcases le_total a.id b.id with h2 | h2 <;> tauto

instance (d : SortDirection) : IsTrans (Row α) (rowLe d) := by
  constructor
  intro a b c hab hbc
  cases d
  case asc =>
    unfold rowLe at *
    rcases hab with h1 | ⟨h1, h1b⟩ <;> rcases hbc with h2 | ⟨h2, h2b⟩
    · exact Or.inl (lt_trans h1 h2)
    · exact Or.inl (by rw [← h2]; exact h1)
    · exact Or.inl (by rw [h1]; exact h2)
    · exact Or.inr ⟨h1.trans h2, le_trans h1b h2b⟩
  case desc =>
    unfold rowLe at *
    rcases hab with h1 | ⟨h1, h1b⟩ <;> rcases hbc with h2 | ⟨h2, h2b⟩
    · exact Or.inl (lt_trans h2 h1)
    · exact Or.inl (by rw [← h2]; exact h1)
    · exact Or.inl (by rw [h1]; exact h2)
    · exact Or.inr ⟨h1.trans h2, le_trans h1b h2b⟩

theorem rowLt_asymm {d : SortDirection} {a b : Row α} (h : rowLt d a b) :
    ¬ rowLt d b a := by
  intro h2
  cases d
  case asc =>
    unfold rowLt at *
    rcases h with h1 | ⟨h1, h1b⟩ <;> rcases h2 with h2 | ⟨h2, h2b⟩
    · exact absurd h1 (lt_asymm h2)
    · rw [h2] at h1; exact lt_irrefl _ h1
    · rw [h1] at h2; exact lt_irrefl _ h2
    · omega
  case desc =>
    unfold rowLt at *
    rcases h with h1 | ⟨h1, h1b⟩ <;> rcases h2 with h2 | ⟨h2, h2b⟩
    · exact absurd h1 (lt_asymm h2)
    · rw [h2] at h1; exact lt_irrefl _ h1
    · rw [h1] at h2; exact lt_irrefl _ h2
    · omega

instance (d : SortDirection) : IsAntisymm (Row α) (rowLt d) :=
  ⟨fun _ _ hab hba => absurd hba (rowLt_asymm hab)⟩

theorem rowLt_irrefl (d : SortDirection) (r : Row α) : ¬ rowLt d r r := by
  cases d <;> unfold rowLt <;> simp

theorem rowLe_of_rowLt {d : SortDirection} {a b : Row α} (h : rowLt d a b) :
    rowLe d a b := by
  cases d <;> unfold rowLt rowLe at * <;>
    rcases h with h | ⟨h, hb⟩ <;> first | exact Or.inl h | exact Or.inr ⟨h, le_of_lt hb⟩

theorem rowLt_of_rowLe_ne {d : SortDirection} {a b : Row α}
    (h : rowLe d a b) (hne : a.id ≠ b.id) : rowLt d a b := by
  cases d <;> unfold rowLt rowLe at * <;>
    rcases h with h | ⟨h, hb⟩ <;>
    first | exact Or.inl h | exact Or.inr ⟨h, lt_of_le_of_ne hb hne⟩

/-- The keyset `HAVING` predicate of the cursor branch:
`total_score < last_score OR (total_score == last_score AND id > last_id)`. -/
def afterCursor (lastScore : α) (lastId : Int) (r : Row α) : Prop :=
  r.score < lastScore ∨ (r.score = lastScore ∧ lastId < r.id)

instance (ls : α) (li : Int) (r : Row α) : Decidable (afterCursor ls li r) := by
  unfold afterCursor; infer_instance

/-- Cursor payload `(score, id)` taken from a row, the content of the
encoded `{"id": .., "score": ..}` token. -/
def curOf (r : Row α) : α × Int := (r.score, r.id)

/-- Rows satisfying the page's predicates: all filtered rows when no cursor
is supplied, and additionally the keyset predicate when one is. -/
def qualifiedRows (rows : List (Row α)) (cur : Option (α × Int)) :
    List (Row α) :=
  match cur with
  | none => rows
  | some c => rows.filter fun r => decide (afterCursor c.1 c.2 r)

/-- One page of the ranked books query with primary sort `by_similarity`:
apply the keyset predicate when a cursor is given, order by score in the
requested direction with id-ascending tie-break, fetch `limit + 1` rows,
return at most `limit` items, and emit a cursor from the last returned row
exactly when more than `limit` rows matched. -/
def booksPage (d : SortDirection) (rows : List (Row α)) (cur : Option (α × Int))
    (limit : Nat) : List (Row α) × Option (α × Int) :=
  let sorted := List.insertionSort (rowLe d) (qualifiedRows rows cur)
  let fetched := sorted.take (limit + 1)
  let items := fetched.take limit
  if limit < fetched.length then (items, items.getLast?.map curOf)
  else (items, none)

/-- Walk successive pages, feeding each returned cursor back in, until no
cursor is returned (fuel bounds the page count). -/
def walkPages (d : SortDirection) (rows : List (Row α)) (limit : Nat) :
    Nat → Option (α × Int) → List (Row α)
  | 0, _ => []
  | fuel + 1, cur =>
    let p := booksPage d rows cur limit
    match p.2 with
    | none => p.1
    | some c => p.1 ++ walkPages d rows limit fuel (some c)

/-- With pairwise-distinct ids, a weakly sorted row list is strictly
sorted. -/
theorem sorted_rowLt_of_sorted_rowLe {d : SortDirection} {L : List (Row α)}
    (hs : L.Sorted (rowLe d)) (hnd : (L.map Row.id).Nodup) :
    L.Sorted (rowLt d) := by
  have hne : L.Pairwise (fun p q => p.id ≠ q.id) := (List.pairwise_map).mp hnd
  exact (hs.and hne).imp (fun h => rowLt_of_rowLe_ne h.1 h.2)

/-- Sorting commutes with filtering, given pairwise-distinct ids. -/
theorem insertionSort_filter_comm (d : SortDirection) (rows : List (Row α))
    (p : Row α → Bool) (hnd : (rows.map Row.id).Nodup) :
    List.insertionSort (rowLe d) (rows.filter p) =
      (List.insertionSort (rowLe d) rows).filter p := by
  have hpermL : (List.insertionSort (rowLe d) rows).Perm rows :=
    List.perm_insertionSort _ rows
  have hndL : ((List.insertionSort (rowLe d) rows).map Row.id).Nodup :=
    ((hpermL.map Row.id).nodup_iff).mpr hnd
  have hperm : (List.insertionSort (rowLe d) (rows.filter p)).Perm
      ((List.insertionSort (rowLe d) rows).filter p) :=
    (List.perm_insertionSort _ _).trans (hpermL.filter p).symm
  have hnd1 : ((rows.filter p).map Row.id).Nodup := by
    refine List.Nodup.sublist ?_ hnd
    exact (List.filter_sublist rows).map Row.id
  have hs1 : (List.insertionSort (rowLe d) (rows.filter p)).Sorted (rowLt d) :=
    sorted_rowLt_of_sorted_rowLe (List.sorted_insertionSort _ _)
      (((List.perm_insertionSort (rowLe d) (rows.filter p)).map Row.id).nodup_iff.mpr hnd1)
  have hs2 : ((List.insertionSort (rowLe d) rows).filter p).Sorted (rowLt d) := by
    refine List.Pairwise.sublist (List.filter_sublist _) ?_
    exact sorted_rowLt_of_sorted_rowLe (List.sorted_insertionSort _ _) hndL
  exact List.eq_of_perm_of_sorted hperm hs1 hs2

/-- A predicate false on the first `k` positions and true afterwards
filters a list to its `k`-suffix. -/
theorem filter_eq_drop {β : Type} (p : β → Bool) :
    ∀ (L : List β) (k : Nat), k ≤ L.length →
      (∀ i (h : i < L.length), i < k → p (L.get ⟨i, h⟩) = false) →
      (∀ i (h : i < L.length), k ≤ i → p (L.get ⟨i, h⟩) = true) →
      L.filter p = L.drop k := by
  intro L
  induction L with
  | nil => intro k _ _ _; simp
  | cons x t ih =>
    intro k hk hlo hhi
    cases k with
    | zero =>
      rw [List.drop_zero]
      refine List.filter_eq_self.mpr ?_
      intro a ha
      obtain ⟨i, hi⟩ := List.get_of_mem ha
      exact hi ▸ hhi i.1 i.2 (Nat.zero_le _)
    | succ k2 =>
      have hx : p x = false := hlo 0 (by simp) (Nat.succ_pos _)
      rw [List.drop_succ_cons, List.filter_cons_of_neg (by simp [hx])]
      refine ih k2 (by simpa using hk) ?_ ?_
      · intro i h hik
        have := hlo (i + 1) (by simpa using Nat.succ_lt_succ h)
          (Nat.succ_lt_succ hik)
        rwa [List.get_cons_succ] at this
      · intro i h hki
        have := hhi (i + 1) (by simpa using Nat.succ_lt_succ h)
          (Nat.succ_le_succ hki)
        rwa [List.get_cons_succ] at this

/-- The keyset predicate relative to a row's cursor payload says exactly
"strictly after that row in the descending ranked order". -/
theorem afterCursor_iff_rowLt (c r : Row α) :
    afterCursor c.score c.id r ↔ rowLt .desc c r := by
  unfold afterCursor rowLt
  constructor
  · rintro (h | ⟨h, hb⟩)
    · exact Or.inl h
    · exact Or.inr ⟨h.symm, hb⟩
  · rintro (h | ⟨h, hb⟩)
    · exact Or.inl h
    · exact Or.inr ⟨h.symm, hb⟩

/-- On a strictly descending-sorted list, the keyset predicate of the
`k`-th element (1-based) selects exactly the suffix from position `k`. -/
theorem filter_after_sorted (L : List (Row α)) (hs : L.Sorted (rowLt .desc))
    (k : Nat) (hk1 : 1 ≤ k) (hk : k - 1 < L.length) :
    (L.filter fun r =>
      decide (afterCursor (L.get ⟨k - 1, hk⟩).score (L.get ⟨k - 1, hk⟩).id r)) =
      L.drop k := by
  have hpg := List.pairwise_iff_get.mp hs
  refine filter_eq_drop _ L k (by omega) ?_ ?_
  · intro i h hik
    rw [decide_eq_false_iff_not, afterCursor_iff_rowLt]
    rcases Nat.lt_or_ge i (k - 1) with hlt | hge
    · exact rowLt_asymm (hpg ⟨i, h⟩ ⟨k - 1, hk⟩ (Fin.mk_lt_mk.mpr hlt))
    · have hieq : i = k - 1 := by omega
      subst hieq
      exact rowLt_irrefl _ _
  · intro i h hki
    rw [decide_eq_true_eq, afterCursor_iff_rowLt]
    exact hpg ⟨k - 1, hk⟩ ⟨i, h⟩ (Fin.mk_lt_mk.mpr (by omega))

/-- Page structure once the sorted qualifying list is known. -/
theorem booksPage_eq (d : SortDirection) (rows : List (Row α))
    (cur : Option (α × Int)) (limit : Nat) (S : List (Row α))
    (hS : List.insertionSort (rowLe d) (qualifiedRows rows cur) = S) :
    booksPage d rows cur limit =
      if limit < S.length then (S.take limit, (S.take limit).getLast?.map curOf)
      else (S, none) := by
  unfold booksPage
  rw [hS]
  have hfl : (S.take (limit + 1)).length = min (limit + 1) S.length :=
    List.length_take _ _
  have hitems : (S.take (limit + 1)).take limit = S.take limit := by
    rw [List.take_take]
    congr 1
    omega
  by_cases hc : limit < S.length
  · rw [if_pos (by omega), if_pos hc, hitems]
  · rw [if_neg (by omega), if_neg hc, hitems, List.take_of_length_le (by omega)]

/-- Last element of a full `take limit` prefix. -/
theorem take_getLast_eq {S : List (Row α)} {limit : Nat} (h : limit < S.length)
    (hlim : 1 ≤ limit) :
    ∃ hidx : limit - 1 < S.length,
      (S.take limit).getLast? = some (S.get ⟨limit - 1, hidx⟩) := by
  refine ⟨by omega, ?_⟩
  have hlen : (S.take limit).length = limit := by
    rw [List.length_take]; omega
  rw [List.getLast?_eq_getElem?, hlen,
    List.getElem?_eq_getElem (by rw [hlen]; omega)]
  congr 1
  rw [List.getElem_take, List.get_eq_getElem]

/-- Walking from the cursor of the `k`-th ranked row (1-based) collects
exactly the remaining suffix of the descending ranked order. -/
theorem walk_desc_from (rows : List (Row α)) (limit : Nat) (hlim : 1 ≤ limit)
    (hnd : (rows.map Row.id).Nodup) :
    ∀ (fuel k : Nat), 1 ≤ k →
      ∀ hk : k - 1 < (List.insertionSort (rowLe .desc) rows).length,
      (List.insertionSort (rowLe .desc) rows).length - k < fuel →
      walkPages .desc rows limit fuel
        (some (curOf ((List.insertionSort (rowLe .desc) rows).get ⟨k - 1, hk⟩))) =
        (List.insertionSort (rowLe .desc) rows).drop k := by
  intro fuel
  induction fuel with
  | zero => intro k _ _ hf; omega
  | succ fuel ih =>
    intro k hk1 hk hfuel
    have hndL : ((List.insertionSort (rowLe .desc) rows).map Row.id).Nodup :=
      (((List.perm_insertionSort (rowLe .desc) rows).map Row.id).nodup_iff).mpr hnd
    have hsL : (List.insertionSort (rowLe .desc) rows).Sorted (rowLt .desc) :=
      sorted_rowLt_of_sorted_rowLe (List.sorted_insertionSort _ _) hndL
    have hqs : List.insertionSort (rowLe .desc)
        (qualifiedRows rows
          (some (curOf ((List.insertionSort (rowLe .desc) rows).get ⟨k - 1, hk⟩)))) =
        (List.insertionSort (rowLe .desc) rows).drop k := by
      show List.insertionSort (rowLe .desc) (rows.filter _) = _
      rw [insertionSort_filter_comm .desc rows _ hnd]
      exact filter_after_sorted _ hsL k hk1 hk
    have hpage := booksPage_eq .desc rows _ limit _ hqs
    rw [walkPages, hpage]
    have hlen : ((List.insertionSort (rowLe .desc) rows).drop k).length =
        (List.insertionSort (rowLe .desc) rows).length - k := List.length_drop _ _
    by_cases hcase :
        limit < ((List.insertionSort (rowLe .desc) rows).drop k).length
    · rw [if_pos hcase]
      obtain ⟨hidx, hlast⟩ := take_getLast_eq hcase hlim
      rw [hlast]
      simp only [Option.map_some']
      show List.take limit ((List.insertionSort (rowLe .desc) rows).drop k) ++
          walkPages .desc rows limit fuel
            (some (curOf (((List.insertionSort (rowLe .desc) rows).drop k).get
              ⟨limit - 1, hidx⟩))) =
          (List.insertionSort (rowLe .desc) rows).drop k
      have hkk : k + limit - 1 < (List.insertionSort (rowLe .desc) rows).length := by
        omega
      have hgd : ((List.insertionSort (rowLe .desc) rows).drop k).get
          ⟨limit - 1, hidx⟩ =
          (List.insertionSort (rowLe .desc) rows).get ⟨k + limit - 1, hkk⟩ := by
        simp only [List.get_eq_getElem, List.getElem_drop]
        congr 1
        omega
      rw [congrArg (fun r => some (curOf r)) hgd]
      rw [ih (k + limit) (by omega) hkk (by omega)]
      rw [← List.drop_drop]
      exact List.take_append_drop limit _
    · rw [if_neg hcase]

/-- C1 counterexample: with primary sort `by_similarity` in ascending
direction (reachable as `sort=similarity:asc`), dataset
`[{id 1, score 1}, {id 2, score 2}]` and page size 1, the cursor walk
returns only the row with id 1 and stops, while the unpaginated ranked
query returns both rows — the walk is not complete, refuting the claim for
ascending primary similarity sort. -/
theorem C1_counterexample :
    walkPages .asc [(⟨1, 1⟩ : Row Int), ⟨2, 2⟩] 1 5 none = [⟨1, 1⟩] ∧
    List.insertionSort (rowLe .asc) [(⟨1, 1⟩ : Row Int), ⟨2, 2⟩] =
      [⟨1, 1⟩, ⟨2, 2⟩] ∧
    walkPages .asc [(⟨1, 1⟩ : Row Int), ⟨2, 2⟩] 1 5 none ≠
      List.insertionSort (rowLe .asc) [(⟨1, 1⟩ : Row Int), ⟨2, 2⟩] := by
  refine ⟨by decide, by decide, by decide⟩

/-- C1 (amended): with primary sort `by_similarity` in descending direction
— the relevance ranking — keyset pagination is complete and duplicate-free:
for ids pairwise distinct, page size at least 1 and enough fuel, walking
successive pages by feeding each returned cursor back collects exactly the
unpaginated ranked list, in order; every page returns at most `limit`
items; and (for either direction) a next cursor is emitted exactly when
more than `limit` rows satisfy the page's predicates. -/
theorem C1_theorem (rows : List (Row α)) (limit fuel : Nat)
    (hlim : 1 ≤ limit) (hnd : (rows.map Row.id).Nodup)
    (hfuel : rows.length < fuel) :
    walkPages .desc rows limit fuel none =
      List.insertionSort (rowLe .desc) rows ∧
    (∀ (d : SortDirection) (cur : Option (α × Int)),
      (booksPage d rows cur limit).1.length ≤ limit) ∧
    (∀ (d : SortDirection) (cur : Option (α × Int)),
      ((booksPage d rows cur limit).2).isSome = true ↔
        limit < (qualifiedRows rows cur).length) := by
  refine ⟨?_, ?_, ?_⟩
  · have hlenL : (List.insertionSort (rowLe .desc) rows).length = rows.length :=
      List.length_insertionSort _ _
    cases fuel with
    | zero => omega
    | succ fuel =>
      have hqs : List.insertionSort (rowLe .desc) (qualifiedRows rows none) =
          List.insertionSort (rowLe .desc) rows := rfl
      rw [walkPages, booksPage_eq .desc rows none limit _ hqs]
      by_cases hcase : limit < (List.insertionSort (rowLe .desc) rows).length
      · rw [if_pos hcase]
        obtain ⟨hidx, hlast⟩ := take_getLast_eq hcase hlim
        rw [hlast]
        simp only [Option.map_some']
        show List.take limit (List.insertionSort (rowLe .desc) rows) ++
            walkPages .desc rows limit fuel
              (some (curOf ((List.insertionSort (rowLe .desc) rows).get
                ⟨limit - 1, hidx⟩))) =
            List.insertionSort (rowLe .desc) rows
        rw [walk_desc_from rows limit hlim hnd fuel limit hlim hidx (by omega)]
        exact List.take_append_drop limit _
      · rw [if_neg hcase]
  · intro d cur
    unfold booksPage
    by_cases hcase : limit <
        ((List.insertionSort (rowLe d) (qualifiedRows rows cur)).take
          (limit + 1)).length
    · rw [if_pos hcase]
      simp only [List.length_take]
      omega
    · rw [if_neg hcase]
      simp only [List.length_take]
      omega
  · intro d cur
    unfold booksPage
    have hlq : (List.insertionSort (rowLe d) (qualifiedRows rows cur)).length =
        (qualifiedRows rows cur).length := List.length_insertionSort _ _
    have hfl : ((List.insertionSort (rowLe d) (qualifiedRows rows cur)).take
        (limit + 1)).length =
        min (limit + 1) (qualifiedRows rows cur).length := by
      rw [List.length_take, hlq]
    by_cases hcase : limit < (qualifiedRows rows cur).length
    · rw [if_pos (by omega)]
      have hne : (List.take limit ((List.insertionSort (rowLe d)
          (qualifiedRows rows cur)).take (limit + 1))) ≠ [] := by
        intro hnil
        have hln := congrArg List.length hnil
        simp only [List.length_take, List.length_nil, hlq] at hln
        omega
      obtain ⟨x, hx⟩ := Option.isSome_iff_exists.mp (List.getLast?_isSome.mpr hne)
      rw [hx]
      simpa using hcase
    · rw [if_neg (by omega)]
      simpa using hcase

/-- C1 witness: the amended completeness theorem at a concrete two-row
dataset with page size 1. -/
theorem C1_witness :
    walkPages .desc [(⟨1, 1⟩ : Row Int), ⟨2, 2⟩] 1 3 none =
      List.insertionSort (rowLe .desc) [(⟨1, 1⟩ : Row Int), ⟨2, 2⟩] :=
  (C1_theorem [(⟨1, 1⟩ : Row Int), ⟨2, 2⟩] 1 3 (by decide) (by decide)
    (by decide)).1

/-! ## URL-safe base64 (`base64.urlsafe_b64encode`/`urlsafe_b64decode`),
over bytes. -/

/-- Alphabet character of a sextet (A-Z, a-z, 0-9, `-`, `_`). -/
def b64Char (n : Nat) : Char :=
  if n < 26 then Char.ofNat (65 + n)
  else if n < 52 then Char.ofNat (71 + n)
  else if n < 62 then Char.ofNat (n - 4)
  else if n = 62 then '-'
  else '_'

/-- Sextet value of an alphabet byte, `none` outside the alphabet. -/
def b64ValByte (b : Nat) : Option Nat :=
  if 65 ≤ b ∧ b ≤ 90 then some (b - 65)
  else if 97 ≤ b ∧ b ≤ 122 then some (b - 71)
  else if 48 ≤ b ∧ b ≤ 57 then some (b + 4)
  else if b = 45 then some 62
  else if b = 95 then some 63
  else none

/-- Base64 encoding with padding of a byte list, as characters. -/
def b64EncodeChars : List Nat → List Char
  | [] => []
  | [b1] => [b64Char (b1 / 4), b64Char (b1 % 4 * 16), '=', '=']
  | [b1, b2] =>
    [b64Char (b1 / 4), b64Char (b1 % 4 * 16 + b2 / 16), b64Char (b2 % 16 * 4), '=']
  | b1 :: b2 :: b3 :: t =>
    b64Char (b1 / 4) :: b64Char (b1 % 4 * 16 + b2 / 16) ::
      b64Char (b2 % 16 * 4 + b3 / 64) :: b64Char (b3 % 64) :: b64EncodeChars t

/-- Process alphabet-only byte quads with trailing padding (the byte 61 is
`=`); a group length not a multiple of four, or misplaced padding, is a
`binascii.Error`. -/
def b64Quads : List Nat → Option (List Nat)
  | [] => some []
  | b1 :: b2 :: b3 :: b4 :: t =>
    match b64ValByte b1, b64ValByte b2 with
    | some v1, some v2 =>
      if b3 = 61 then
        if b4 = 61 ∧ t = [] then some [v1 * 4 + v2 / 16] else none
      else
        match b64ValByte b3 with
        | some v3 =>
          if b4 = 61 then
            if t = [] then some [v1 * 4 + v2 / 16, v2 % 16 * 16 + v3 / 4]
            else none
          else
            match b64ValByte b4 with
            | some v4 =>
              (b64Quads t).map
                (fun r => (v1 * 4 + v2 / 16) :: (v2 % 16 * 16 + v3 / 4) ::
                  (v3 % 4 * 64 + v4) :: r)
            | none => none
        | none => none
    | _, _ => none
  | _ => none

/-- Model of `urlsafe_b64decode` on ASCII bytes: bytes outside the alphabet
and padding are discarded first (default non-validating mode), then quads
are decoded. -/
def b64DecodeBytes (bs : List Nat) : Option (List Nat) :=
  b64Quads (bs.filter fun b => (b64ValByte b).isSome || b = 61)

/-! ## ASCII and UTF-8 byte decoding (`cursor.encode("ascii")` and
`raw.decode("utf-8")`). -/

/-- Model of `str.encode("ascii")`: `none` is the `UnicodeEncodeError`
raised on a character beyond 0x7f. -/
def asciiEncode : List Char → Option (List Nat)
  | [] => some []
  | c :: t =>
    if c.toNat < 128 then (asciiEncode t).map (fun r => c.toNat :: r) else none

/-- Strict UTF-8 decoding of bytes (Python `bytes.decode("utf-8")`):
rejects stray continuations, overlong forms, surrogates and out-of-range
code points; `none` is the `UnicodeDecodeError`. The fuel argument only
bounds the recursion; one unit per decoded character always suffices. -/
def utf8DecodeAux : Nat → List Nat → Option (List Char)
  | 0, _ => none
  | fuel + 1, bs =>
    match bs with
    | [] => some []
    | b :: t =>
      if b < 128 then (utf8DecodeAux fuel t).map (fun r => Char.ofNat b :: r)
      else if b < 192 then none
      else if b < 224 then
        match t with
        | b2 :: t2 =>
          if 128 ≤ b2 ∧ b2 < 192 then
            if (b - 192) * 64 + (b2 - 128) < 128 then none
            else (utf8DecodeAux fuel t2).map
              (fun r => Char.ofNat ((b - 192) * 64 + (b2 - 128)) :: r)
          else none
        | _ => none
      else if b < 240 then
        match t with
        | b2 :: b3 :: t2 =>
          if (128 ≤ b2 ∧ b2 < 192) ∧ (128 ≤ b3 ∧ b3 < 192) then
            if (b - 224) * 4096 + (b2 - 128) * 64 + (b3 - 128) < 2048 ∨
                (55296 ≤ (b - 224) * 4096 + (b2 - 128) * 64 + (b3 - 128) ∧
                  (b - 224) * 4096 + (b2 - 128) * 64 + (b3 - 128) < 57344) then
              none
            else (utf8DecodeAux fuel t2).map
              (fun r => Char.ofNat ((b - 224) * 4096 + (b2 - 128) * 64 +
                (b3 - 128)) :: r)
          else none
        | _ => none
      else if b < 248 then
        match t with
        | b2 :: b3 :: b4 :: t2 =>
          if (128 ≤ b2 ∧ b2 < 192) ∧ (128 ≤ b3 ∧ b3 < 192) ∧
              (128 ≤ b4 ∧ b4 < 192) then
            if (b - 240) * 262144 + (b2 - 128) * 4096 + (b3 - 128) * 64 +
                  (b4 - 128) < 65536 ∨
                1114112 ≤ (b - 240) * 262144 + (b2 - 128) * 4096 +
                  (b3 - 128) * 64 + (b4 - 128) then
              none
            else (utf8DecodeAux fuel t2).map
              (fun r => Char.ofNat ((b - 240) * 262144 + (b2 - 128) * 4096 +
                (b3 - 128) * 64 + (b4 - 128)) :: r)
          else none
        | _ => none
      else none

/-- Model of `bytes.decode("utf-8")`. -/
def utf8Decode (bs : List Nat) : Option (List Char) :=
  utf8DecodeAux (bs.length + 1) bs

/-! ## JSON parsing (`json.loads`). The grammar is the compact subset this
codebase can meet: no surrounding whitespace, object/array/string/number/
literal values, full string escapes with surrogate pairs, numbers with
optional fraction and exponent (lone surrogates and leading zeros are
rejected more eagerly than CPython, which only shifts some malformed
inputs between the two failure classes handled identically upstream). -/

/-- Hexadecimal digit value of a character. -/
def hexVal (c : Char) : Option Nat :=
  if 48 ≤ c.toNat ∧ c.toNat ≤ 57 then some (c.toNat - 48)
  else if 97 ≤ c.toNat ∧ c.toNat ≤ 102 then some (c.toNat - 87)
  else if 65 ≤ c.toNat ∧ c.toNat ≤ 70 then some (c.toNat - 55)
  else none

/-- Character denoted by a simple escape `\c`. -/
def escCharInv (c : Char) : Option Char :=
  if c = '"' then some '"'
  else if c = '\\' then some '\\'
  else if c = '/' then some '/'
  else if c = 'b' then some (Char.ofNat 8)
  else if c = 'f' then some (Char.ofNat 12)
  else if c = 'n' then some (Char.ofNat 10)
  else if c = 'r' then some (Char.ofNat 13)
  else if c = 't' then some (Char.ofNat 9)
  else none

/-- Combined value of four hex digits. -/
def hex4Val (h1 h2 h3 h4 : Char) : Option Nat :=
  match hexVal h1, hexVal h2, hexVal h3, hexVal h4 with
  | some v1, some v2, some v3, some v4 =>
    some (v1 * 4096 + v2 * 256 + v3 * 16 + v4)
  | _, _, _, _ => none

/-- String-body scanner: consumes characters and escapes up to the closing
quote, returning the decoded characters and the unconsumed suffix (fuel
bounds the recursion; one unit per decoded character suffices). -/
def parseStrAux : Nat → List Char → Option (List Char × List Char)
  | 0, _ => none
  | fuel + 1, cs =>
    match cs with
    | [] => none
    | c :: rest =>
      if c = '"' then some ([], rest)
      else if c = '\\' then
        match rest with
        | [] => none
        | e :: rest2 =>
          if e = 'u' then
            match rest2 with
            | h1 :: h2 :: h3 :: h4 :: rest3 =>
              (hex4Val h1 h2 h3 h4).bind (fun n =>
                if 55296 ≤ n ∧ n < 56320 then
                  match rest3 with
                  | e2 :: u2 :: g1 :: g2 :: g3 :: g4 :: rest4 =>
                    if e2 = '\\' ∧ u2 = 'u' then
                      (hex4Val g1 g2 g3 g4).bind (fun m =>
                        if 56320 ≤ m ∧ m < 57344 then
                          (parseStrAux fuel rest4).map (fun p =>
                            (Char.ofNat (65536 + (n - 55296) * 1024 +
                              (m - 56320)) :: p.1, p.2))
                        else none)
                    else none
                  | _ => none
                else if 56320 ≤ n ∧ n < 57344 then none
                else
                  (parseStrAux fuel rest3).map
                    (fun p => (Char.ofNat n :: p.1, p.2)))
            | _ => none
          else
            (escCharInv e).bind (fun ec =>
              (parseStrAux fuel rest2).map (fun p => (ec :: p.1, p.2)))
      else if c.toNat < 32 then none
      else (parseStrAux fuel rest).map (fun p => (c :: p.1, p.2))

/-- String-body scanner with always-sufficient fuel. -/
def parseStringBody (cs : List Char) : Option (List Char × List Char) :=
  parseStrAux (cs.length + 1) cs

/-- Normalize a parsed decimal taking an explicit exponent into account
(`float()` semantics: value `(m / 10 ^ e) * 10 ^ k`, canonicalized). -/
def applyExpo (m : Int) (e : Nat) (k : Int) : Dec :=
  if 0 ≤ k then
    if k.toNat ≤ e then stripZeros m (e - k.toNat)
    else stripZeros (m * 10 ^ (k.toNat - e)) 0
  else stripZeros m (e + (-k).toNat)

/-- Exponent-part scanner, finishing a number already holding mantissa `m`
and fractional length `e`. -/
def parseExpo (m : Int) (e : Nat) (cs : List Char) : Option (JVal × List Char) :=
  if cs.head? = some 'e' ∨ cs.head? = some 'E' then
    let cs1 := cs.tail
    let negk := cs1.head? = some '-'
    let cs2 := if cs1.head? = some '-' ∨ cs1.head? = some '+' then cs1.tail else cs1
    (parseNatChars cs2).map (fun pr =>
      (.dec (applyExpo m e (if negk then -(pr.1 : Int) else (pr.1 : Int))), pr.2))
  else some (.dec (stripZeros m e), cs)

/-- Number scanner: sign, integer digits, optional fraction, optional
exponent; an integer literal with neither becomes a Python `int`, anything
else a float. -/
def parseNumber (cs : List Char) : Option (JVal × List Char) :=
  let neg := cs.head? = some '-'
  let cs1 := if neg then cs.tail else cs
  (parseNatChars cs1).bind (fun pr =>
    let ipart := pr.1
    let rest := pr.2
    if rest.head? = some '.' then
      let rest2 := rest.tail
      let fds := rest2.takeWhile Char.isDigit
      if fds.isEmpty then none
      else
        parseExpo
          (if neg then -((ipart : Int) * 10 ^ fds.length + digitsVal fds)
            else (ipart : Int) * 10 ^ fds.length + digitsVal fds)
          fds.length (rest2.dropWhile Char.isDigit)
    else if rest.head? = some 'e' ∨ rest.head? = some 'E' then
      parseExpo (if neg then -(ipart : Int) else (ipart : Int)) 0 rest
    else some (.int (if neg then -(ipart : Int) else (ipart : Int)), rest))

mutual

/-- Fueled JSON value scanner. -/
def parseVal : Nat → List Char → Option (JVal × List Char)
  | 0, _ => none
  | fuel + 1, cs =>
    match cs with
    | [] => none
    | c :: rest =>
      if c = 'n' then
        match rest with
        | 'u' :: 'l' :: 'l' :: r2 => some (.null, r2)
        | _ => none
      else if c = 't' then
        match rest with
        | 'r' :: 'u' :: 'e' :: r2 => some (.bool true, r2)
        | _ => none
      else if c = 'f' then
        match rest with
        | 'a' :: 'l' :: 's' :: 'e' :: r2 => some (.bool false, r2)
        | _ => none
      else if c = '"' then
        (parseStringBody rest).map (fun p => (.str ⟨p.1⟩, p.2))
      else if c = '[' then
        if rest.head? = some ']' then some (.arr [], rest.tail)
        else (parseElems fuel rest).map (fun p => (.arr p.1, p.2))
      else if c = '{' then
        if rest.head? = some '}' then some (.obj [], rest.tail)
        else (parseMembers fuel rest).map (fun p => (.obj p.1, p.2))
      else parseNumber (c :: rest)

/-- Fueled scanner for the elements of a nonempty array (after `[`). -/
def parseElems : Nat → List Char → Option (List JVal × List Char)
  | 0, _ => none
  | fuel + 1, cs =>
    match parseVal fuel cs with
    | none => none
    | some (v, rest) =>
      if rest.head? = some ',' then
        (parseElems fuel rest.tail).map (fun p => (v :: p.1, p.2))
      else if rest.head? = some ']' then some ([v], rest.tail)
      else none

/-- Fueled scanner for the members of a nonempty object (after `{`). -/
def parseMembers : Nat → List Char → Option (List (String × JVal) × List Char)
  | 0, _ => none
  | fuel + 1, cs =>
    match cs with
    | '"' :: rest =>
      match parseStringBody rest with
      | none => none
      | some (k, rest2) =>
        if rest2.head? = some ':' then
          match parseVal fuel rest2.tail with
          | none => none
          | some (v, rest4) =>
            if rest4.head? = some ',' then
              (parseMembers fuel rest4.tail).map
                (fun p => ((⟨k⟩, v) :: p.1, p.2))
            else if rest4.head? = some '}' then some ([(⟨k⟩, v)], rest4.tail)
            else none
        else none
    | _ => none

end

/-- Model of `json.loads` on a whole document: parse one value consuming
the entire input (fuel `length + 1` always suffices: every constructor
consumes at least one character). -/
def jsonLoads (cs : List Char) : Option JVal :=
  match parseVal (cs.length + 1) cs with
  | some (v, []) => some v
  | _ => none

/-! ## Character-level facts. -/

theorem char_ofNat_toNat_of_valid {n : Nat} (h : n.isValidChar) :
    (Char.ofNat n).toNat = n := by
  rw [Char.ofNat, dif_pos h]
  rfl

theorem char_toNat_not_surrogate (c : Char) :
    ¬ (55296 ≤ c.toNat ∧ c.toNat < 57344) := by
  rcases c.valid with h | ⟨h1, _⟩
  · intro ⟨ha, _⟩
    have : c.toNat < 55296 := by exact_mod_cast h
    omega
  · intro ⟨_, hb⟩
    have : 57343 < c.toNat := by exact_mod_cast h1
    omega

theorem char_toNat_lt (c : Char) : c.toNat < 1114112 := by
  rcases c.valid with h | ⟨_, h2⟩
  · have : c.toNat < 55296 := by exact_mod_cast h
    omega
  · exact_mod_cast h2

theorem isDigit_iff (c : Char) : c.isDigit = true ↔ 48 ≤ c.toNat ∧ c.toNat ≤ 57 := by
  simp only [Char.isDigit, Bool.and_eq_true, decide_eq_true_eq]
  constructor
  · intro ⟨h1, h2⟩
    exact ⟨by exact_mod_cast h1, by exact_mod_cast h2⟩
  · intro ⟨h1, h2⟩
    exact ⟨by exact_mod_cast h1, by exact_mod_cast h2⟩

/-! ## ASCII, base64 and UTF-8 round-trips. -/

theorem asciiEncode_of_ascii (cs : List Char) (h : ∀ c ∈ cs, c.toNat < 128) :
    asciiEncode cs = some (cs.map Char.toNat) := by
  induction cs with
  | nil => rfl
  | cons c t ih =>
    simp only [asciiEncode, if_pos (h c (by simp)), List.map_cons]
    rw [ih (fun x hx => h x (by simp [hx]))]
    rfl

theorem b64Char_facts : ∀ n, n < 64 → (b64Char n).toNat < 128 ∧
    b64ValByte ((b64Char n).toNat) = some n ∧ (b64Char n).toNat ≠ 61 := by decide

theorem b64EncodeChars_ascii (bs : List Nat) (h : ∀ b ∈ bs, b < 256) :
    ∀ c ∈ b64EncodeChars bs, c.toNat < 128 := by
  induction bs using b64EncodeChars.induct with
  | case1 => simp [b64EncodeChars]
  | case2 b1 =>
    intro c hc
    have hb1 : b1 < 256 := h b1 (by simp)
    simp only [b64EncodeChars, List.mem_cons, List.not_mem_nil, or_false] at hc
    rcases hc with rfl | rfl | rfl | rfl
    · exact (b64Char_facts _ (by omega)).1
    · exact (b64Char_facts _ (by omega)).1
    · decide
    · decide
  | case3 b1 b2 =>
    intro c hc
    have hb1 : b1 < 256 := h b1 (by simp)
    have hb2 : b2 < 256 := h b2 (by simp)
    simp only [b64EncodeChars, List.mem_cons, List.not_mem_nil, or_false] at hc
    rcases hc with rfl | rfl | rfl | rfl
    · exact (b64Char_facts _ (by omega)).1
    · exact (b64Char_facts _ (by omega)).1
    · exact (b64Char_facts _ (by omega)).1
    · decide
  | case4 b1 b2 b3 t ih =>
    intro c hc
    have hb1 : b1 < 256 := h b1 (by simp)
    have hb2 : b2 < 256 := h b2 (by simp)
    have hb3 : b3 < 256 := h b3 (by simp)
    simp only [b64EncodeChars, List.mem_cons] at hc
    rcases hc with rfl | rfl | rfl | rfl | hc
    · exact (b64Char_facts _ (by omega)).1
    · exact (b64Char_facts _ (by omega)).1
    · exact (b64Char_facts _ (by omega)).1
    · exact (b64Char_facts _ (by omega)).1
    · exact ih (fun x hx => h x (by simp [hx])) c hc

theorem b64EncodeChars_alphabet (bs : List Nat) (h : ∀ b ∈ bs, b < 256) :
    ∀ c ∈ b64EncodeChars bs,
      ((b64ValByte c.toNat).isSome || c.toNat = 61) = true := by
  induction bs using b64EncodeChars.induct with
  | case1 => simp [b64EncodeChars]
  | case2 b1 =>
    intro c hc
    have hb1 : b1 < 256 := h b1 (by simp)
    simp only [b64EncodeChars, List.mem_cons, List.not_mem_nil, or_false] at hc
    rcases hc with rfl | rfl | rfl | rfl
    · simp [(b64Char_facts _ (by omega : b1 / 4 < 64)).2.1]
    · simp [(b64Char_facts _ (by omega : b1 % 4 * 16 < 64)).2.1]
    · decide
    · decide
  | case3 b1 b2 =>
    intro c hc
    have hb1 : b1 < 256 := h b1 (by simp)
    have hb2 : b2 < 256 := h b2 (by simp)
    simp only [b64EncodeChars, List.mem_cons, List.not_mem_nil, or_false] at hc
    rcases hc with rfl | rfl | rfl | rfl
    · simp [(b64Char_facts _ (by omega : b1 / 4 < 64)).2.1]
    · simp [(b64Char_facts _ (by omega : b1 % 4 * 16 + b2 / 16 < 64)).2.1]
    · simp [(b64Char_facts _ (by omega : b2 % 16 * 4 < 64)).2.1]
    · decide
  | case4 b1 b2 b3 t ih =>
    intro c hc
    have hb1 : b1 < 256 := h b1 (by simp)
    have hb2 : b2 < 256 := h b2 (by simp)
    have hb3 : b3 < 256 := h b3 (by simp)
    simp only [b64EncodeChars, List.mem_cons] at hc
    rcases hc with rfl | rfl | rfl | rfl | hc
    · simp [(b64Char_facts _ (by omega : b1 / 4 < 64)).2.1]
    · simp [(b64Char_facts _ (by omega : b1 % 4 * 16 + b2 / 16 < 64)).2.1]
    · simp [(b64Char_facts _ (by omega : b2 % 16 * 4 + b3 / 64 < 64)).2.1]
    · simp [(b64Char_facts _ (by omega : b3 % 64 < 64)).2.1]
    · exact ih (fun x hx => h x (by simp [hx])) c hc

theorem b64Quads_encode (bs : List Nat) (h : ∀ b ∈ bs, b < 256) :
    b64Quads ((b64EncodeChars bs).map Char.toNat) = some bs := by
  induction bs using b64EncodeChars.induct with
  | case1 => rfl
  | case2 b1 =>
    have hb1 : b1 < 256 := h b1 (by simp)
    have f1 := b64Char_facts (b1 / 4) (by omega)
    have f2 := b64Char_facts (b1 % 4 * 16) (by omega)
    simp only [b64EncodeChars, List.map_cons, List.map_nil, b64Quads,
      f1.2.1, f2.2.1, if_pos (show ('=').toNat = 61 from rfl),
      Option.some.injEq, List.cons_eq_cons, and_true, reduceIte]
    omega
  | case3 b1 b2 =>
    have hb1 : b1 < 256 := h b1 (by simp)
    have hb2 : b2 < 256 := h b2 (by simp)
    have f1 := b64Char_facts (b1 / 4) (by omega)
    have f2 := b64Char_facts (b1 % 4 * 16 + b2 / 16) (by omega)
    have f3 := b64Char_facts (b2 % 16 * 4) (by omega)
    simp only [b64EncodeChars, List.map_cons, List.map_nil, b64Quads,
      f1.2.1, f2.2.1, if_neg f3.2.2, f3.2.1,
      if_pos (show ('=').toNat = 61 from rfl), Option.some.injEq,
      List.cons_eq_cons, and_true, reduceIte]
    omega
  | case4 b1 b2 b3 t ih =>
    have hb1 : b1 < 256 := h b1 (by simp)
    have hb2 : b2 < 256 := h b2 (by simp)
    have hb3 : b3 < 256 := h b3 (by simp)
    have f1 := b64Char_facts (b1 / 4) (by omega)
    have f2 := b64Char_facts (b1 % 4 * 16 + b2 / 16) (by omega)
    have f3 := b64Char_facts (b2 % 16 * 4 + b3 / 64) (by omega)
    have f4 := b64Char_facts (b3 % 64) (by omega)
    simp only [b64EncodeChars, List.map_cons, b64Quads, f1.2.1, f2.2.1,
      if_neg f3.2.2, f3.2.1, if_neg f4.2.2, f4.2.1,
      ih (fun x hx => h x (by simp [hx])), Option.map_some',
      Option.some.injEq, List.cons_eq_cons, and_true]
    omega

theorem b64_decode_encode (bs : List Nat) (h : ∀ b ∈ bs, b < 256) :
    b64DecodeBytes ((b64EncodeChars bs).map Char.toNat) = some bs := by
  unfold b64DecodeBytes
  rw [List.filter_eq_self.mpr ?_]
  · exact b64Quads_encode bs h
  · intro b hb
    obtain ⟨c, hc, rfl⟩ := List.mem_map.mp hb
    exact b64EncodeChars_alphabet bs h c hc

theorem utf8List_of_ascii (cs : List Char) (h : ∀ c ∈ cs, c.toNat < 128) :
    utf8List cs = cs.map Char.toNat := by
  induction cs with
  | nil => rfl
  | cons c t ih =>
    have hc : c.toNat < 128 := h c (by simp)
    simp only [utf8List, utf8Char, if_pos hc, List.map_cons, List.cons_append,
      List.nil_append]
    rw [ih (fun x hx => h x (by simp [hx]))]

theorem utf8DecodeAux_of_ascii (bs : List Nat) (h : ∀ b ∈ bs, b < 128) :
    ∀ fuel, bs.length < fuel → utf8DecodeAux fuel bs = some (bs.map Char.ofNat) := by
  induction bs with
  | nil =>
    intro fuel hf
    cases fuel with
    | zero => omega
    | succ fuel => rfl
  | cons b t ih =>
    intro fuel hf
    cases fuel with
    | zero => omega
    | succ fuel =>
      have hb : b < 128 := h b (by simp)
      show (if b < 128 then (utf8DecodeAux fuel t).map (fun r => Char.ofNat b :: r)
        else _) = _
      rw [if_pos hb,
        ih (fun x hx => h x (by simp [hx])) fuel (by simpa using Nat.lt_of_succ_lt_succ hf)]
      rfl

theorem utf8Decode_of_ascii (bs : List Nat) (h : ∀ b ∈ bs, b < 128) :
    utf8Decode bs = some (bs.map Char.ofNat) :=
  utf8DecodeAux_of_ascii bs h (bs.length + 1) (Nat.lt_succ_self _)

theorem hexVal_hexChar : ∀ n, n < 16 → hexVal (hexChar n) = some n := by decide

theorem hex4Val_hexChars (n : Nat) (h : n < 65536) :
    hex4Val (hexChar (n / 4096 % 16)) (hexChar (n / 256 % 16))
      (hexChar (n / 16 % 16)) (hexChar (n % 16)) = some n := by
  unfold hex4Val
  rw [hexVal_hexChar _ (Nat.mod_lt _ (by norm_num)),
    hexVal_hexChar _ (Nat.mod_lt _ (by norm_num)),
    hexVal_hexChar _ (Nat.mod_lt _ (by norm_num)),
    hexVal_hexChar _ (Nat.mod_lt _ (by norm_num))]
  show some (n / 4096 % 16 * 4096 + n / 256 % 16 * 256 + n / 16 % 16 * 16 +
    n % 16) = some n
  exact congrArg some (by omega)

theorem parseStrAux_escape :
    ∀ (s : List Char) (fuel : Nat) (rest : List Char), s.length < fuel →
      parseStrAux fuel (escapeList s ++ '"' :: rest) = some (s, rest) := by
  intro s
  induction s with
  | nil =>
    intro fuel rest hf
    cases fuel with
    | zero => omega
    | succ f => rfl
  | cons c t ih =>
    intro fuel rest hf
    cases fuel with
    | zero => omega
    | succ f =>
      have hlen : t.length < f := by
        simp only [List.length_cons] at hf
        omega
      show parseStrAux (f + 1) ((escapeChar c ++ escapeList t) ++ '"' :: rest) =
        some (c :: t, rest)
      rw [List.append_assoc]
      by_cases h1 : c = '"'
      · subst h1
        show parseStrAux (f + 1)
          ('\\' :: '"' :: (escapeList t ++ '"' :: rest)) = _
        simp only [parseStrAux, escCharInv, reduceIte, Char.reduceEq]
        rw [ih f _ hlen]
        rfl
      · by_cases h2 : c = '\\'
        · subst h2
          show parseStrAux (f + 1)
            ('\\' :: '\\' :: (escapeList t ++ '"' :: rest)) = _
          simp only [parseStrAux, escCharInv, reduceIte, Char.reduceEq]
          rw [ih f _ hlen]
          rfl
        · by_cases h3 : c.toNat = 10
          · have he : escapeChar c = ['\\', 'n'] := by
              unfold escapeChar
              rw [if_neg h1, if_neg h2, if_pos h3]
            have hc : Char.ofNat 10 = c := by rw [← h3, Char.ofNat_toNat]
            rw [he]
            show parseStrAux (f + 1)
              ('\\' :: 'n' :: (escapeList t ++ '"' :: rest)) = _
            simp only [parseStrAux, escCharInv, reduceIte, Char.reduceEq]
            rw [ih f _ hlen]
            simp only [Option.map_some']
            rw [hc]
            rfl
          · by_cases h4 : c.toNat = 13
            · have he : escapeChar c = ['\\', 'r'] := by
                unfold escapeChar
                rw [if_neg h1, if_neg h2, if_neg h3, if_pos h4]
              have hc : Char.ofNat 13 = c := by rw [← h4, Char.ofNat_toNat]
              rw [he]
              show parseStrAux (f + 1)
                ('\\' :: 'r' :: (escapeList t ++ '"' :: rest)) = _
              simp only [parseStrAux, escCharInv, reduceIte, Char.reduceEq]
              rw [ih f _ hlen]
              simp only [Option.map_some']
              rw [hc]
              rfl
            · by_cases h5 : c.toNat = 9
              · have he : escapeChar c = ['\\', 't'] := by
                  unfold escapeChar
                  rw [if_neg h1, if_neg h2, if_neg h3, if_neg h4, if_pos h5]
                have hc : Char.ofNat 9 = c := by rw [← h5, Char.ofNat_toNat]
                rw [he]
                show parseStrAux (f + 1)
                  ('\\' :: 't' :: (escapeList t ++ '"' :: rest)) = _
                simp only [parseStrAux, escCharInv, reduceIte, Char.reduceEq]
                rw [ih f _ hlen]
                simp only [Option.map_some']
                rw [hc]
                rfl
              · by_cases h6 : c.toNat = 8
                · have he : escapeChar c = ['\\', 'b'] := by
                    unfold escapeChar
                    rw [if_neg h1, if_neg h2, if_neg h3, if_neg h4, if_neg h5,
                      if_pos h6]
                  have hc : Char.ofNat 8 = c := by rw [← h6, Char.ofNat_toNat]
                  rw [he]
                  show parseStrAux (f + 1)
                    ('\\' :: 'b' :: (escapeList t ++ '"' :: rest)) = _
                  simp only [parseStrAux, escCharInv, reduceIte, Char.reduceEq]
                  rw [ih f _ hlen]
                  simp only [Option.map_some']
                  rw [hc]
                  rfl
                · by_cases h7 : c.toNat = 12
                  · have he : escapeChar c = ['\\', 'f'] := by
                      unfold escapeChar
                      rw [if_neg h1, if_neg h2, if_neg h3, if_neg h4, if_neg h5,
                        if_neg h6, if_pos h7]
                    have hc : Char.ofNat 12 = c := by rw [← h7, Char.ofNat_toNat]
                    rw [he]
                    show parseStrAux (f + 1)
                      ('\\' :: 'f' :: (escapeList t ++ '"' :: rest)) = _
                    simp only [parseStrAux, escCharInv, reduceIte, Char.reduceEq]
                    rw [ih f _ hlen]
                    simp only [Option.map_some']
                    rw [hc]
                    rfl
                  · by_cases h8 : c.toNat < 32 ∨ 126 < c.toNat
                    · by_cases h9 : c.toNat < 65536
                      · have he : escapeChar c = '\\' :: 'u' :: hex4 c.toNat := by
                          unfold escapeChar
                          rw [if_neg h1, if_neg h2, if_neg h3, if_neg h4,
                            if_neg h5, if_neg h6, if_neg h7, if_pos h8,
                            if_pos h9]
                        rw [he]
                        show parseStrAux (f + 1)
                          ('\\' :: 'u' :: hexChar (c.toNat / 4096 % 16) ::
                            hexChar (c.toNat / 256 % 16) ::
                            hexChar (c.toNat / 16 % 16) :: hexChar (c.toNat % 16)
                            :: (escapeList t ++ '"' :: rest)) = _
                        simp only [parseStrAux, reduceIte, Char.reduceEq]
                        rw [hex4Val_hexChars c.toNat h9]
                        have hns := char_toNat_not_surrogate c
                        simp only [Option.some_bind]
                        rw [if_neg (by omega), if_neg (by omega),
                          ih f _ hlen]
                        simp only [Option.map_some']
                        rw [Char.ofNat_toNat]
                      · have hlt := char_toNat_lt c
                        have he : escapeChar c =
                            ('\\' :: 'u' :: hex4 (55296 + (c.toNat - 65536) / 1024)) ++
                              ('\\' :: 'u' :: hex4 (56320 + (c.toNat - 65536) % 1024)) := by
                          unfold escapeChar
                          rw [if_neg h1, if_neg h2, if_neg h3, if_neg h4,
                            if_neg h5, if_neg h6, if_neg h7, if_pos h8,
                            if_neg h9]
                        rw [he]
                        show parseStrAux (f + 1)
                          ('\\' :: 'u' ::
                            hexChar ((55296 + (c.toNat - 65536) / 1024) / 4096 % 16) ::
                            hexChar ((55296 + (c.toNat - 65536) / 1024) / 256 % 16) ::
                            hexChar ((55296 + (c.toNat - 65536) / 1024) / 16 % 16) ::
                            hexChar ((55296 + (c.toNat - 65536) / 1024) % 16) ::
                            '\\' :: 'u' ::
                            hexChar ((56320 + (c.toNat - 65536) % 1024) / 4096 % 16) ::
                            hexChar ((56320 + (c.toNat - 65536) % 1024) / 256 % 16) ::
                            hexChar ((56320 + (c.toNat - 65536) % 1024) / 16 % 16) ::
                            hexChar ((56320 + (c.toNat - 65536) % 1024) % 16) ::
                            (escapeList t ++ '"' :: rest)) = _
                        simp only [parseStrAux, reduceIte, Char.reduceEq]
                        rw [hex4Val_hexChars _ (by omega)]
                        rw [Option.some_bind]
                        rw [if_pos (by constructor <;> omega)]
                        rw [if_pos (by constructor <;> decide)]
                        rw [hex4Val_hexChars _ (by omega)]
                        rw [Option.some_bind]
                        rw [if_pos (by constructor <;> omega)]
                        rw [ih f _ hlen]
                        simp only [Option.map_some']
                        have harith : 65536 + (55296 + (c.toNat - 65536) / 1024 - 55296) *
                            1024 + (56320 + (c.toNat - 65536) % 1024 - 56320) =
                            c.toNat := by omega
                        rw [harith, Char.ofNat_toNat]
                    · have he : escapeChar c = [c] := by
                        unfold escapeChar
                        rw [if_neg h1, if_neg h2, if_neg h3, if_neg h4, if_neg h5,
                          if_neg h6, if_neg h7, if_neg h8]
                      rw [he]
                      show parseStrAux (f + 1)
                        (c :: (escapeList t ++ '"' :: rest)) = _
                      simp only [parseStrAux]
                      rw [if_neg h1, if_neg h2, if_neg (by omega : ¬ c.toNat < 32),
                        ih f _ hlen]
                      rfl

/-- Escape/unescape round-trip for whole string bodies. -/
theorem parseStringBody_escape (s : List Char) (rest : List Char) :
    parseStringBody (escapeList s ++ '"' :: rest) = some (s, rest) := by
  refine parseStrAux_escape s _ rest ?_
  have : s.length ≤ (escapeList s).length := by
    induction s with
    | nil => simp [escapeList]
    | cons c t ih =>
      have hc : 1 ≤ (escapeChar c).length := by
        unfold escapeChar
        repeat' split
        all_goals simp
      simp only [escapeList, List.length_append, List.length_cons]
      omega
  simp only [List.length_append, List.length_cons]
  omega

/-- UTF-8 round-trip for ASCII-only character lists. -/
theorem utf8Decode_utf8List (cs : List Char) (h : ∀ c ∈ cs, c.toNat < 128) :
    utf8Decode (utf8List cs) = some cs := by
  rw [utf8List_of_ascii cs h, utf8Decode_of_ascii _ (by
    intro b hb
    obtain ⟨c, hc, rfl⟩ := List.mem_map.mp hb
    exact h c hc)]
  congr 1
  rw [List.map_map]
  refine List.map_congr_left ?_ |>.trans (List.map_id cs)
  intro c _
  exact Char.ofNat_toNat c

/-! ## Number round-trips. -/

/-- A suffix at which a number literal certainly ends: empty, or starting
with a character that can extend neither the digits nor the fraction nor
the exponent. -/
def numBoundary : List Char → Bool
  | [] => true
  | c :: _ => decide (c.isDigit = false ∧ c ≠ '.' ∧ c ≠ 'e' ∧ c ≠ 'E')

theorem numBoundary_head {rest : List Char} (h : numBoundary rest = true) :
    headIsDigit rest = false ∧ rest.head? ≠ some '.' ∧
      rest.head? ≠ some 'e' ∧ rest.head? ≠ some 'E' := by
  cases rest with
  | nil => simp [headIsDigit]
  | cons c t =>
    have hc := of_decide_eq_true h
    refine ⟨hc.1, ?_, ?_, ?_⟩ <;>
      simp only [List.head?_cons, ne_eq, Option.some.injEq] <;>
      [exact hc.2.1; exact hc.2.2.1; exact hc.2.2.2]

/-- Integer-literal round-trip for the number scanner. -/
theorem parseNumber_int (n : Int) (rest : List Char)
    (hrest : numBoundary rest = true) :
    parseNumber (intReprChars n ++ rest) = some (.int n, rest) := by
  obtain ⟨hdig, hdot, he, hE⟩ := numBoundary_head hrest
  obtain ⟨d, t, hd, hht⟩ := charsOfNat_head n.natAbs
  by_cases hneg : n < 0
  · have hx : intReprChars n ++ rest = '-' :: (charsOfNat n.natAbs ++ rest) := by
      rw [intReprChars, if_pos hneg, List.cons_append]
    rw [hx]
    have hcond : ((('-' :: (charsOfNat n.natAbs ++ rest)).head? = some '-')) =
        True := eq_true rfl
    simp only [parseNumber, hcond, if_true, List.tail_cons]
    rw [parseNatChars_round _ _ hdig]
    simp only [Option.some_bind]
    rw [if_neg hdot, if_neg (not_or.mpr ⟨he, hE⟩)]
    have h1 : -((n.natAbs : Nat) : Int) = n := by omega
    rw [h1]
  · have hx : intReprChars n ++ rest = charsOfNat n.natAbs ++ rest := by
      rw [intReprChars, if_neg hneg]
    rw [hx]
    have hne : ¬ ((charsOfNat n.natAbs ++ rest).head? = some '-') := by
      rw [hht]
      simp only [List.cons_append, List.head?_cons, ne_eq, Option.some.injEq]
      exact digitChar_ne_dash d hd
    have hcond := eq_false hne
    simp only [parseNumber, hcond, if_false]
    rw [parseNatChars_round _ _ hdig]
    simp only [Option.some_bind]
    rw [if_neg hdot, if_neg (not_or.mpr ⟨he, hE⟩)]
    have h1 : ((n.natAbs : Nat) : Int) = n := by omega
    rw [h1]

theorem natDigits_length_le (k n : Nat) (h1 : 0 < k) (h2 : n < 10 ^ k) :
    (natDigits n).length ≤ k := by
  induction k generalizing n with
  | zero => omega
  | succ k ih =>
    rw [natDigits_eq]
    by_cases h10 : n < 10
    · simp [h10]
    · rw [if_neg h10]
      have hk : 0 < k := by
        by_contra hc
        have : k = 0 := by omega
        subst this
        simp at h2
        omega
      have hd : n / 10 < 10 ^ k := by
        have : n < 10 ^ k * 10 := by
          calc n < 10 ^ (k + 1) := h2
          _ = 10 ^ k * 10 := by ring
        omega
      have := ih (n / 10) hk hd
      simp only [List.length_append, List.length_cons, List.length_nil]
      omega

theorem digitsVal_replicate_zero (j : Nat) (cs : List Char) :
    digitsVal (List.replicate j '0' ++ cs) = digitsVal cs := by
  induction j with
  | zero => simp
  | succ j ih =>
    simp only [List.replicate_succ, List.cons_append]
    show (List.replicate j '0' ++ cs).foldl
      (fun a c => 10 * a + digitVal c) (10 * 0 + digitVal '0') = _
    have h0 : 10 * 0 + digitVal '0' = 0 := by decide
    rw [h0]
    exact ih

theorem padZeros_length (k : Nat) (ds : List Char) (h : ds.length ≤ k) :
    (padZeros k ds).length = k := by
  simp only [padZeros, List.length_append, List.length_replicate]
  omega

theorem padZeros_all_digit (k : Nat) (ds : List Char)
    (h : ∀ c ∈ ds, c.isDigit = true) :
    ∀ c ∈ padZeros k ds, c.isDigit = true := by
  intro c hc
  rcases List.mem_append.mp hc with hc | hc
  · rw [List.eq_of_mem_replicate hc]; decide
  · exact h c hc

theorem digitsVal_padZeros (k r : Nat) :
    digitsVal (padZeros k (charsOfNat r)) = r := by
  rw [padZeros, digitsVal_replicate_zero, digitsVal_charsOfNat]

/-- Generic fraction-literal round-trip: sign, integer digits, dot,
nonempty fraction digits, boundary suffix. -/
theorem parseNumber_decAux (neg : Prop) [Decidable neg] (Q : Nat)
    (F rest : List Char) (hF : F ≠ []) (hFd : ∀ c ∈ F, c.isDigit = true)
    (hrest : numBoundary rest = true) :
    parseNumber ((if neg then ['-'] else []) ++
        (charsOfNat Q ++ '.' :: (F ++ rest))) =
      some (.dec (stripZeros
        (if neg then -((Q : Int) * 10 ^ F.length + digitsVal F)
          else (Q : Int) * 10 ^ F.length + digitsVal F) F.length), rest) := by
  obtain ⟨hdig, hdot, he, hE⟩ := numBoundary_head hrest
  have hfds : (F ++ rest).takeWhile Char.isDigit = F := by
    rw [takeWhile_append_all hFd,
      takeWhile_head_false (by cases rest <;> simpa [headIsDigit] using hdig)]
    simp
  have hdrop : (F ++ rest).dropWhile Char.isDigit = rest := by
    rw [dropWhile_append_all hFd]
    exact dropWhile_head_false (by cases rest <;> simpa [headIsDigit] using hdig)
  have hnotE : ¬ (rest.head? = some 'e' ∨ rest.head? = some 'E') :=
    not_or.mpr ⟨he, hE⟩
  have hnotEmpty : ¬ (F.isEmpty = true) := by
    simpa [List.isEmpty_iff] using hF
  by_cases hn : neg
  · simp only [if_pos hn, List.singleton_append]
    have hcond : ((('-' :: (charsOfNat Q ++ '.' :: (F ++ rest))).head? =
        some '-')) = True := eq_true rfl
    simp only [parseNumber, hcond, if_true, List.tail_cons]
    rw [parseNatChars_round _ _ (by rfl)]
    simp only [Option.some_bind]
    rw [if_pos (show ('.' :: (F ++ rest)).head? = some '.' from rfl),
      List.tail_cons, hfds, hdrop, if_neg hnotEmpty, parseExpo,
      if_neg hnotE]
  · simp only [if_neg hn, List.nil_append]
    obtain ⟨dq, tq, hdq, hhtq⟩ := charsOfNat_head Q
    have hne : ¬ ((charsOfNat Q ++ '.' :: (F ++ rest)).head? = some '-') := by
      rw [hhtq]
      simp only [List.cons_append, List.head?_cons, Option.some.injEq]
      exact digitChar_ne_dash dq hdq
    have hcond := eq_false hne
    simp only [parseNumber, hcond, if_false]
    rw [parseNatChars_round _ _ (by rfl)]
    simp only [Option.some_bind]
    rw [if_pos (show ('.' :: (F ++ rest)).head? = some '.' from rfl),
      List.tail_cons, hfds, hdrop, if_neg hnotEmpty, parseExpo,
      if_neg hnotE]

/-- Decimal-literal round-trip: parsing the printed form of a canonical
decimal recovers it exactly. -/
theorem parseNumber_dec (d : Dec) (hd : d.Canonical) (rest : List Char)
    (hrest : numBoundary rest = true) :
    parseNumber (decReprChars d ++ rest) = some (.dec d, rest) := by
  by_cases he0 : d.e = 0
  · have hx : decReprChars d ++ rest = (if d.m < 0 then ['-'] else []) ++
        (charsOfNat d.m.natAbs ++ '.' :: (['0'] ++ rest)) := by
      simp only [decReprChars]
      rw [if_pos he0]
      simp [List.append_assoc]
    rw [hx, parseNumber_decAux (d.m < 0) d.m.natAbs ['0'] rest
      (by simp) (by intro c hc; simp at hc; subst hc; decide) hrest]
    have hdv : (digitsVal ['0'] : Int) = 0 := by decide
    have hM : (if d.m < 0 then
        -((d.m.natAbs : Int) * 10 ^ (['0'] : List Char).length + digitsVal ['0'])
        else (d.m.natAbs : Int) * 10 ^ (['0'] : List Char).length + digitsVal ['0'])
        = d.m * 10 := by
      rw [hdv]
      by_cases hn : d.m < 0
      · rw [if_pos hn]
        simp only [List.length_singleton, pow_one]
        omega
      · rw [if_neg hn]
        simp only [List.length_singleton, pow_one]
        omega
    rw [hM]
    have hs : stripZeros (d.m * 10) (['0'] : List Char).length = ⟨d.m, 0⟩ := by
      show stripZeros (d.m * 10) 1 = _
      rw [stripZeros, if_pos (by omega : d.m * 10 % 10 = 0)]
      have : d.m * 10 / 10 = d.m := by omega
      rw [stripZeros, this]
    rw [hs]
    obtain ⟨m, e⟩ := d
    simp only at he0
    subst he0
    rfl
  · obtain ⟨e', he'⟩ : ∃ e', d.e = e' + 1 := ⟨d.e - 1, by omega⟩
    have hcan : d.m % 10 ≠ 0 := hd he0
    have hrlt : d.m.natAbs % 10 ^ d.e < 10 ^ d.e :=
      Nat.mod_lt _ (by positivity)
    have hlenF : (charsOfNat (d.m.natAbs % 10 ^ d.e)).length ≤ d.e := by
      simp only [charsOfNat, List.length_map]
      exact natDigits_length_le d.e _ (by omega) hrlt
    have hFlen : (padZeros d.e (charsOfNat (d.m.natAbs % 10 ^ d.e))).length =
        d.e := padZeros_length _ _ hlenF
    have hFne : padZeros d.e (charsOfNat (d.m.natAbs % 10 ^ d.e)) ≠ [] := by
      intro hc
      rw [hc] at hFlen
      simp at hFlen
      omega
    have hFd := padZeros_all_digit d.e (charsOfNat (d.m.natAbs % 10 ^ d.e))
      (charsOfNat_all_digit _)
    have hx : decReprChars d ++ rest = (if d.m < 0 then ['-'] else []) ++
        (charsOfNat (d.m.natAbs / 10 ^ d.e) ++ '.' ::
          (padZeros d.e (charsOfNat (d.m.natAbs % 10 ^ d.e)) ++ rest)) := by
      simp only [decReprChars]
      rw [if_neg he0]
      simp [List.append_assoc]
    rw [hx, parseNumber_decAux (d.m < 0) _ _ rest hFne hFd hrest]
    have hdv : (digitsVal (padZeros d.e (charsOfNat (d.m.natAbs % 10 ^ d.e))) :
        Int) = (d.m.natAbs % 10 ^ d.e : Nat) := by
      rw [digitsVal_padZeros]
    have hqr : ((d.m.natAbs / 10 ^ d.e : Nat) : Int) * 10 ^ d.e +
        ((d.m.natAbs % 10 ^ d.e : Nat) : Int) = (d.m.natAbs : Int) := by
      have := Nat.div_add_mod d.m.natAbs (10 ^ d.e)
      push_cast
      push_cast at this
      linarith
    have hM : (if d.m < 0 then
        -(((d.m.natAbs / 10 ^ d.e : Nat) : Int) *
            10 ^ (padZeros d.e (charsOfNat (d.m.natAbs % 10 ^ d.e))).length +
          digitsVal (padZeros d.e (charsOfNat (d.m.natAbs % 10 ^ d.e))))
        else ((d.m.natAbs / 10 ^ d.e : Nat) : Int) *
            10 ^ (padZeros d.e (charsOfNat (d.m.natAbs % 10 ^ d.e))).length +
          digitsVal (padZeros d.e (charsOfNat (d.m.natAbs % 10 ^ d.e)))) =
        d.m := by
      rw [hFlen, hdv]
      by_cases hn : d.m < 0
      · rw [if_pos hn, hqr]
        omega
      · rw [if_neg hn, hqr]
        omega
    rw [hM, hFlen]
    have hs : stripZeros d.m d.e = ⟨d.m, d.e⟩ := by
      rw [he', stripZeros, if_neg hcan]
    rw [hs]

/-! ## Round-trip canonicity and serializer head shapes. -/

mutual

/-- Round-trip canonicity of a JSON value: every float inside is a
canonical decimal (the only values `repr(float)` actually prints). -/
def canonV : JVal → Bool
  | .null => true
  | .bool _ => true
  | .int _ => true
  | .dec d => decide d.Canonical
  | .str _ => true
  | .arr xs => canonL xs
  | .obj kvs => canonM kvs

/-- Canonicity of a list of values. -/
def canonL : List JVal → Bool
  | [] => true
  | v :: t => canonV v && canonL t

/-- Canonicity of object members. -/
def canonM : List (String × JVal) → Bool
  | [] => true
  | (_, v) :: t => canonV v && canonM t

end

theorem numHead_guards (c : Char) (h : c = '-' ∨ c.isDigit = true) :
    ¬ c = 'n' ∧ ¬ c = 't' ∧ ¬ c = 'f' ∧ ¬ c = '"' ∧ ¬ c = '[' ∧ ¬ c = '{' ∧
      ¬ c = ']' := by
  rcases h with rfl | h
  · exact ⟨by decide, by decide, by decide, by decide, by decide, by decide,
      by decide⟩
  · rw [isDigit_iff] at h
    refine ⟨?_, ?_, ?_, ?_, ?_, ?_, ?_⟩ <;> intro hc <;> subst hc <;>
      exact absurd h (by decide)

theorem intReprChars_head (n : Int) :
    ∃ c t, intReprChars n = c :: t ∧ (c = '-' ∨ c.isDigit = true) := by
  obtain ⟨d, t, hd, hht⟩ := charsOfNat_head n.natAbs
  by_cases hneg : n < 0
  · exact ⟨'-', charsOfNat n.natAbs, by rw [intReprChars, if_pos hneg],
      Or.inl rfl⟩
  · exact ⟨digitChar d, t, by rw [intReprChars, if_neg hneg, hht],
      Or.inr (digitChar_isDigit d hd)⟩

theorem decReprChars_head (d : Dec) :
    ∃ c t, decReprChars d = c :: t ∧ (c = '-' ∨ c.isDigit = true) := by
  by_cases hneg : d.m < 0
  · by_cases he : d.e = 0
    · refine ⟨'-', charsOfNat d.m.natAbs ++ ['.', '0'], ?_, Or.inl rfl⟩
      simp only [decReprChars]
      rw [if_pos he, if_pos hneg]
      rfl
    · refine ⟨'-', charsOfNat (d.m.natAbs / 10 ^ d.e) ++
        '.' :: padZeros d.e (charsOfNat (d.m.natAbs % 10 ^ d.e)), ?_,
        Or.inl rfl⟩
      simp only [decReprChars]
      rw [if_neg he, if_pos hneg]
      rfl
  · by_cases he : d.e = 0
    · obtain ⟨dg, t, hdg, hht⟩ := charsOfNat_head d.m.natAbs
      refine ⟨digitChar dg, t ++ ['.', '0'], ?_,
        Or.inr (digitChar_isDigit dg hdg)⟩
      simp only [decReprChars]
      rw [if_pos he, if_neg hneg, hht]
      rfl
    · obtain ⟨dg, t, hdg, hht⟩ := charsOfNat_head (d.m.natAbs / 10 ^ d.e)
      refine ⟨digitChar dg, t ++
        '.' :: padZeros d.e (charsOfNat (d.m.natAbs % 10 ^ d.e)), ?_,
        Or.inr (digitChar_isDigit dg hdg)⟩
      simp only [decReprChars]
      rw [if_neg he, if_neg hneg, hht]
      rfl

theorem dumpVal_head (v : JVal) :
    ∃ c t, dumpVal v = c :: t ∧ ¬ c = ']' := by
  cases v with
  | null => exact ⟨'n', _, rfl, by decide⟩
  | bool b =>
    cases b with
    | true => exact ⟨'t', _, rfl, by decide⟩
    | false => exact ⟨'f', _, rfl, by decide⟩
  | int n =>
    obtain ⟨c, t, hct, hh⟩ := intReprChars_head n
    exact ⟨c, t, hct, (numHead_guards c hh).2.2.2.2.2.2⟩
  | dec dd =>
    obtain ⟨c, t, hct, hh⟩ := decReprChars_head dd
    exact ⟨c, t, hct, (numHead_guards c hh).2.2.2.2.2.2⟩
  | str s => exact ⟨'"', _, rfl, by decide⟩
  | arr xs => exact ⟨'[', _, rfl, by decide⟩
  | obj kvs => exact ⟨'{', _, rfl, by decide⟩

theorem dumpElems_cons_head (x : JVal) (xs : List JVal) :
    ∃ c t, dumpElems (x :: xs) = c :: t ∧ ¬ c = ']' := by
  obtain ⟨c, t, hct, hne⟩ := dumpVal_head x
  cases xs with
  | nil => exact ⟨c, t, hct, hne⟩
  | cons y ys =>
    refine ⟨c, t ++ ',' :: dumpElems (y :: ys), ?_, hne⟩
    show dumpVal x ++ ',' :: dumpElems (y :: ys) = _
    rw [hct, List.cons_append]

theorem dumpMembers_cons_head (kv : String × JVal) (t : List (String × JVal)) :
    ∃ u, dumpMembers (kv :: t) = '"' :: u := by
  obtain ⟨k, v⟩ := kv
  cases t with
  | nil => exact ⟨_, rfl⟩
  | cons y ys => exact ⟨_, rfl⟩

/-! ## Value-scanner helper steps. -/

theorem parseVal_eq_parseNumber (f : Nat) (c : Char) (t : List Char)
    (h : c = '-' ∨ c.isDigit = true) :
    parseVal (f + 1) (c :: t) = parseNumber (c :: t) := by
  obtain ⟨h1, h2, h3, h4, h5, h6, _⟩ := numHead_guards c h
  simp only [parseVal]
  rw [if_neg h1, if_neg h2, if_neg h3, if_neg h4, if_neg h5, if_neg h6]

theorem parseVal_null (f : Nat) (rest : List Char) :
    parseVal (f + 1) (dumpVal .null ++ rest) = some (.null, rest) := rfl

theorem parseVal_true (f : Nat) (rest : List Char) :
    parseVal (f + 1) (dumpVal (.bool true) ++ rest) =
      some (.bool true, rest) := rfl

theorem parseVal_false (f : Nat) (rest : List Char) :
    parseVal (f + 1) (dumpVal (.bool false) ++ rest) =
      some (.bool false, rest) := rfl

theorem parseVal_arr_nil (f : Nat) (rest : List Char) :
    parseVal (f + 1) (dumpVal (.arr []) ++ rest) = some (.arr [], rest) := rfl

theorem parseVal_obj_nil (f : Nat) (rest : List Char) :
    parseVal (f + 1) (dumpVal (.obj []) ++ rest) = some (.obj [], rest) := rfl

theorem parseVal_str (f : Nat) (s : String) (rest : List Char) :
    parseVal (f + 1) (dumpVal (.str s) ++ rest) = some (.str s, rest) := by
  have hx : dumpVal (.str s) ++ rest =
      '"' :: (escapeList s.data ++ '"' :: rest) := by
    show '"' :: (escapeList s.data ++ ['"']) ++ rest = _
    simp [List.append_assoc]
  rw [hx]
  simp only [parseVal, reduceIte, Char.reduceEq]
  rw [parseStringBody_escape]
  rfl

theorem parseVal_int (f : Nat) (n : Int) (rest : List Char)
    (hb : numBoundary rest = true) :
    parseVal (f + 1) (dumpVal (.int n) ++ rest) = some (.int n, rest) := by
  obtain ⟨c, t, hct, hh⟩ := intReprChars_head n
  have hx : dumpVal (.int n) ++ rest = c :: (t ++ rest) := by
    show intReprChars n ++ rest = _
    rw [hct, List.cons_append]
  rw [hx, parseVal_eq_parseNumber f c (t ++ rest) hh, ← List.cons_append,
    ← hct]
  exact parseNumber_int n rest hb

theorem parseVal_dec (f : Nat) (d : Dec) (hd : d.Canonical) (rest : List Char)
    (hb : numBoundary rest = true) :
    parseVal (f + 1) (dumpVal (.dec d) ++ rest) = some (.dec d, rest) := by
  obtain ⟨c, t, hct, hh⟩ := decReprChars_head d
  have hx : dumpVal (.dec d) ++ rest = c :: (t ++ rest) := by
    show decReprChars d ++ rest = _
    rw [hct, List.cons_append]
  rw [hx, parseVal_eq_parseNumber f c (t ++ rest) hh, ← List.cons_append,
    ← hct]
  exact parseNumber_dec d hd rest hb

/-- Parse-of-dump round-trip for all three scanners, by induction on fuel:
the serializer output of a canonical value parses back to exactly that
value, leaving the suffix untouched. -/
theorem parse_dump_aux (fuel : Nat) :
    (∀ v rest, (dumpVal v).length ≤ fuel → canonV v = true →
      numBoundary rest = true →
      parseVal fuel (dumpVal v ++ rest) = some (v, rest)) ∧
    (∀ xs rest, xs ≠ [] → (dumpElems xs).length + 1 ≤ fuel →
      canonL xs = true →
      parseElems fuel (dumpElems xs ++ ']' :: rest) = some (xs, rest)) ∧
    (∀ kvs rest, kvs ≠ [] → (dumpMembers kvs).length + 1 ≤ fuel →
      canonM kvs = true →
      parseMembers fuel (dumpMembers kvs ++ '}' :: rest) = some (kvs, rest)) := by
  induction fuel with
  | zero =>
    refine ⟨?_, ?_, ?_⟩
    · intro v rest hw _ _
      obtain ⟨c, t, hct, _⟩ := dumpVal_head v
      rw [hct] at hw
      simp at hw
    · intro xs rest _ hw _
      omega
    · intro kvs rest _ hw _
      omega
  | succ f ih =>
    obtain ⟨ihV, ihE, ihM⟩ := ih
    refine ⟨?_, ?_, ?_⟩
    · intro v rest hw hc hb
      cases v with
      | null => exact parseVal_null f rest
      | bool b =>
        cases b with
        | true => exact parseVal_true f rest
        | false => exact parseVal_false f rest
      | int n => exact parseVal_int f n rest hb
      | dec dd => exact parseVal_dec f dd (of_decide_eq_true hc) rest hb
      | str s => exact parseVal_str f s rest
      | arr xs =>
        cases xs with
        | nil => exact parseVal_arr_nil f rest
        | cons x t =>
          have hx : dumpVal (.arr (x :: t)) ++ rest =
              '[' :: (dumpElems (x :: t) ++ ']' :: rest) := by
            show '[' :: (dumpElems (x :: t) ++ [']']) ++ rest = _
            simp [List.append_assoc]
          rw [hx]
          simp only [parseVal, reduceIte, Char.reduceEq]
          obtain ⟨c, u, hcu, hcne⟩ := dumpElems_cons_head x t
          have hhd : ¬ ((dumpElems (x :: t) ++ ']' :: rest).head? =
              some ']') := by
            rw [hcu]
            simp only [List.cons_append, List.head?_cons, Option.some.injEq]
            exact hcne
          rw [if_neg hhd]
          have hwE : (dumpElems (x :: t)).length + 1 ≤ f := by
            have hlen : (dumpVal (.arr (x :: t))).length =
                (dumpElems (x :: t)).length + 2 := by
              show ('[' :: (dumpElems (x :: t) ++ [']'])).length = _
              simp
            omega
          rw [ihE (x :: t) rest (by simp) hwE hc]
          rfl
      | obj kvs =>
        cases kvs with
        | nil => exact parseVal_obj_nil f rest
        | cons kv t =>
          have hx : dumpVal (.obj (kv :: t)) ++ rest =
              '{' :: (dumpMembers (kv :: t) ++ '}' :: rest) := by
            show '{' :: (dumpMembers (kv :: t) ++ ['}']) ++ rest = _
            simp [List.append_assoc]
          rw [hx]
          simp only [parseVal, reduceIte, Char.reduceEq]
          obtain ⟨u, hu⟩ := dumpMembers_cons_head kv t
          have hhd : ¬ ((dumpMembers (kv :: t) ++ '}' :: rest).head? =
              some '}') := by
            rw [hu]
            simp only [List.cons_append, List.head?_cons, Option.some.injEq]
            decide
          rw [if_neg hhd]
          have hwM : (dumpMembers (kv :: t)).length + 1 ≤ f := by
            have hlen : (dumpVal (.obj (kv :: t))).length =
                (dumpMembers (kv :: t)).length + 2 := by
              show ('{' :: (dumpMembers (kv :: t) ++ ['}'])).length = _
              simp
            omega
          rw [ihM (kv :: t) rest (by simp) hwM hc]
          rfl
    · intro xs rest hne hw hc
      cases xs with
      | nil => exact absurd rfl hne
      | cons x t =>
        have hcs : canonV x = true ∧ canonL t = true := by
          have hc2 := hc
          simp only [canonL, Bool.and_eq_true] at hc2
          exact hc2
        cases t with
        | nil =>
          rw [show dumpElems [x] = dumpVal x from rfl]
          have hwV : (dumpVal x).length ≤ f := by
            rw [show dumpElems [x] = dumpVal x from rfl] at hw
            omega
          have hp := ihV x (']' :: rest) hwV hcs.1 (by rfl)
          simp only [parseElems, hp]
          rw [if_neg (show ¬ ((']' :: rest).head? = some ',') by simp),
            if_pos (show (']' :: rest).head? = some ']' from rfl)]
          rfl
        | cons y ys =>
          have hx : dumpElems (x :: y :: ys) ++ ']' :: rest =
              dumpVal x ++ (',' :: (dumpElems (y :: ys) ++ ']' :: rest)) := by
            show (dumpVal x ++ ',' :: dumpElems (y :: ys)) ++ ']' :: rest = _
            simp [List.append_assoc]
          rw [hx]
          have hlen : (dumpElems (x :: y :: ys)).length =
              (dumpVal x).length + 1 + (dumpElems (y :: ys)).length := by
            show (dumpVal x ++ ',' :: dumpElems (y :: ys)).length = _
            simp
            omega
          have hwV : (dumpVal x).length ≤ f := by omega
          have hwE : (dumpElems (y :: ys)).length + 1 ≤ f := by omega
          have hp := ihV x (',' :: (dumpElems (y :: ys) ++ ']' :: rest))
            hwV hcs.1 (by rfl)
          simp only [parseElems, hp]
          rw [if_pos (show (',' :: (dumpElems (y :: ys) ++
            ']' :: rest)).head? = some ',' from rfl)]
          rw [show (',' :: (dumpElems (y :: ys) ++ ']' :: rest)).tail =
            dumpElems (y :: ys) ++ ']' :: rest from rfl]
          rw [ihE (y :: ys) rest (by simp) hwE hcs.2]
          rfl
    · intro kvs rest hne hw hc
      cases kvs with
      | nil => exact absurd rfl hne
      | cons kv t =>
        obtain ⟨k, v⟩ := kv
        have hcs : canonV v = true ∧ canonM t = true := by
          have hc2 := hc
          simp only [canonM, Bool.and_eq_true] at hc2
          exact hc2
        cases t with
        | nil =>
          have hx : dumpMembers [(k, v)] ++ '}' :: rest =
              '"' :: (escapeList k.data ++ '"' ::
                (':' :: (dumpVal v ++ '}' :: rest))) := by
            show ('"' :: (escapeList k.data ++ '"' :: ':' :: dumpVal v)) ++
              '}' :: rest = _
            simp [List.append_assoc]
          rw [hx]
          have hwV : (dumpVal v).length ≤ f := by
            have hlen : (dumpMembers [(k, v)]).length =
                (escapeList k.data).length + (dumpVal v).length + 3 := by
              show ('"' :: (escapeList k.data ++ '"' :: ':' ::
                dumpVal v)).length = _
              simp
              omega
            omega
          have hp := ihV v ('}' :: rest) hwV hcs.1 (by rfl)
          simp only [parseMembers, parseStringBody_escape, List.head?_cons,
            List.tail_cons, Option.some.injEq, Char.reduceEq, reduceIte, hp]
        | cons kv2 t2 =>
          have hx : dumpMembers ((k, v) :: kv2 :: t2) ++ '}' :: rest =
              '"' :: (escapeList k.data ++ '"' ::
                (':' :: (dumpVal v ++
                  (',' :: (dumpMembers (kv2 :: t2) ++ '}' :: rest))))) := by
            show (('"' :: (escapeList k.data ++ '"' :: ':' :: dumpVal v)) ++
              ',' :: dumpMembers (kv2 :: t2)) ++ '}' :: rest = _
            simp [List.append_assoc]
          rw [hx]
          have hlen : (dumpMembers ((k, v) :: kv2 :: t2)).length =
              (escapeList k.data).length + (dumpVal v).length +
                (dumpMembers (kv2 :: t2)).length + 4 := by
            show (('"' :: (escapeList k.data ++ '"' :: ':' :: dumpVal v)) ++
              ',' :: dumpMembers (kv2 :: t2)).length = _
            simp
            omega
          have hwV : (dumpVal v).length ≤ f := by omega
          have hwM : (dumpMembers (kv2 :: t2)).length + 1 ≤ f := by omega
          have hp := ihV v
            (',' :: (dumpMembers (kv2 :: t2) ++ '}' :: rest)) hwV hcs.1
            (by rfl)
          have hq := ihM (kv2 :: t2) rest (by simp) hwM hcs.2
          simp only [parseMembers, parseStringBody_escape, List.head?_cons,
            List.tail_cons, Option.some.injEq, Char.reduceEq, reduceIte, hp,
            hq]
          rfl

/-- `json.loads ∘ json.dumps` is the identity on canonical values. -/
theorem jsonLoads_dump (v : JVal) (hv : canonV v = true) :
    jsonLoads (dumpVal v) = some v := by
  have h := (parse_dump_aux ((dumpVal v).length + 1)).1 v [] (by omega) hv rfl
  rw [List.append_nil] at h
  simp only [jsonLoads, h]

/-- `json.dumps` is injective on canonical values. -/
theorem dumpVal_injective {v w : JVal} (hv : canonV v = true)
    (hw : canonV w = true) (h : dumpVal v = dumpVal w) : v = w := by
  have h1 := jsonLoads_dump v hv
  have h2 := jsonLoads_dump w hw
  rw [h, h2] at h1
  exact Option.some.inj h1.symm

/-! ## The serializer output is pure ASCII (`ensure_ascii=True`). -/

theorem digitChar_ascii : ∀ d, d < 10 → (digitChar d).toNat < 128 := by decide

theorem charsOfNat_ascii (n : Nat) : ∀ c ∈ charsOfNat n, c.toNat < 128 := by
  intro c hc
  obtain ⟨d, hd, rfl⟩ := List.mem_map.mp hc
  exact digitChar_ascii d (natDigits_lt_ten n d hd)

theorem intReprChars_ascii (n : Int) : ∀ c ∈ intReprChars n, c.toNat < 128 := by
  intro c hc
  rw [intReprChars] at hc
  by_cases hneg : n < 0
  · rw [if_pos hneg] at hc
    rcases List.mem_cons.mp hc with rfl | hc
    · decide
    · exact charsOfNat_ascii _ c hc
  · rw [if_neg hneg] at hc
    exact charsOfNat_ascii _ c hc

theorem padZeros_ascii (k : Nat) (r : Nat) :
    ∀ c ∈ padZeros k (charsOfNat r), c.toNat < 128 := by
  intro c hc
  rcases List.mem_append.mp hc with hc | hc
  · rw [List.eq_of_mem_replicate hc]; decide
  · exact charsOfNat_ascii r c hc

theorem decReprChars_ascii (d : Dec) : ∀ c ∈ decReprChars d, c.toNat < 128 := by
  intro c hc
  have hsign : c ∈ (if d.m < 0 then ['-'] else ([] : List Char)) →
      c.toNat < 128 := by
    intro hx
    by_cases hneg : d.m < 0
    · rw [if_pos hneg] at hx
      rw [List.mem_singleton.mp hx]
      decide
    · rw [if_neg hneg] at hx
      cases hx
  simp only [decReprChars] at hc
  by_cases he : d.e = 0
  · rw [if_pos he] at hc
    rcases List.mem_append.mp hc with hc | hc
    · rcases List.mem_append.mp hc with hc | hc
      · exact hsign hc
      · exact charsOfNat_ascii _ c hc
    · simp only [List.mem_cons, List.not_mem_nil, or_false] at hc
      rcases hc with rfl | rfl <;> decide
  · rw [if_neg he] at hc
    rcases List.mem_append.mp hc with hc | hc
    · rcases List.mem_append.mp hc with hc | hc
      · exact hsign hc
      · exact charsOfNat_ascii _ c hc
    · rcases List.mem_cons.mp hc with rfl | hc
      · decide
      · exact padZeros_ascii d.e _ c hc

theorem hexChar_ascii : ∀ n, n < 16 → (hexChar n).toNat < 128 := by decide

theorem hex4_ascii (n : Nat) : ∀ c ∈ hex4 n, c.toNat < 128 := by
  intro c hc
  simp only [hex4, List.mem_cons, List.not_mem_nil, or_false] at hc
  rcases hc with rfl | rfl | rfl | rfl <;>
    exact hexChar_ascii _ (Nat.mod_lt _ (by norm_num))

theorem escapeChar_ascii (c : Char) : ∀ x ∈ escapeChar c, x.toNat < 128 := by
  intro x hx
  unfold escapeChar at hx
  by_cases h1 : c = '"'
  · rw [if_pos h1] at hx
    simp only [List.mem_cons, List.not_mem_nil, or_false] at hx
    rcases hx with rfl | rfl <;> decide
  rw [if_neg h1] at hx
  by_cases h2 : c = '\\'
  · rw [if_pos h2] at hx
    simp only [List.mem_cons, List.not_mem_nil, or_false] at hx
    rcases hx with rfl | rfl <;> decide
  rw [if_neg h2] at hx
  by_cases h3 : c.toNat = 10
  · rw [if_pos h3] at hx
    simp only [List.mem_cons, List.not_mem_nil, or_false] at hx
    rcases hx with rfl | rfl <;> decide
  rw [if_neg h3] at hx
  by_cases h4 : c.toNat = 13
  · rw [if_pos h4] at hx
    simp only [List.mem_cons, List.not_mem_nil, or_false] at hx
    rcases hx with rfl | rfl <;> decide
  rw [if_neg h4] at hx
  by_cases h5 : c.toNat = 9
  · rw [if_pos h5] at hx
    simp only [List.mem_cons, List.not_mem_nil, or_false] at hx
    rcases hx with rfl | rfl <;> decide
  rw [if_neg h5] at hx
  by_cases h6 : c.toNat = 8
  · rw [if_pos h6] at hx
    simp only [List.mem_cons, List.not_mem_nil, or_false] at hx
    rcases hx with rfl | rfl <;> decide
  rw [if_neg h6] at hx
  by_cases h7 : c.toNat = 12
  · rw [if_pos h7] at hx
    simp only [List.mem_cons, List.not_mem_nil, or_false] at hx
    rcases hx with rfl | rfl <;> decide
  rw [if_neg h7] at hx
  by_cases h8 : c.toNat < 32 ∨ 126 < c.toNat
  · rw [if_pos h8] at hx
    by_cases h9 : c.toNat < 65536
    · rw [if_pos h9] at hx
      rcases List.mem_cons.mp hx with rfl | hx
      · decide
      rcases List.mem_cons.mp hx with rfl | hx
      · decide
      · exact hex4_ascii _ x hx
    · rw [if_neg h9] at hx
      rcases List.mem_append.mp hx with hx | hx <;>
        (rcases List.mem_cons.mp hx with rfl | hx
         · decide
         rcases List.mem_cons.mp hx with rfl | hx
         · decide
         · exact hex4_ascii _ x hx)
  · rw [if_neg h8] at hx
    rw [List.mem_singleton.mp hx]
    push_neg at h8
    omega

theorem escapeList_ascii (s : List Char) : ∀ x ∈ escapeList s, x.toNat < 128 := by
  induction s with
  | nil => intro x hx; cases hx
  | cons c t ih =>
    intro x hx
    rcases List.mem_append.mp hx with hx | hx
    · exact escapeChar_ascii c x hx
    · exact ih x hx

/-- ASCII-ness of the three serializers, by induction on output length. -/
theorem dump_ascii_aux (N : Nat) :
    (∀ v, (dumpVal v).length ≤ N → ∀ c ∈ dumpVal v, c.toNat < 128) ∧
    (∀ xs, (dumpElems xs).length + 1 ≤ N →
      ∀ c ∈ dumpElems xs, c.toNat < 128) ∧
    (∀ kvs, (dumpMembers kvs).length + 1 ≤ N →
      ∀ c ∈ dumpMembers kvs, c.toNat < 128) := by
  induction N with
  | zero =>
    refine ⟨?_, ?_, ?_⟩
    · intro v hlen c hc
      have hnil : dumpVal v = [] := List.eq_nil_of_length_eq_zero (by omega)
      rw [hnil] at hc
      cases hc
    · intro xs hlen c hc
      omega
    · intro kvs hlen c hc
      omega
  | succ N ih =>
    obtain ⟨ihV, ihE, ihM⟩ := ih
    refine ⟨?_, ?_, ?_⟩
    · intro v hlen c hc
      cases v with
      | null =>
        simp only [dumpVal, List.mem_cons, List.not_mem_nil, or_false] at hc
        rcases hc with rfl | rfl | rfl | rfl <;> decide
      | bool b =>
        cases b <;>
          simp only [dumpVal, List.mem_cons, List.not_mem_nil, or_false]
            at hc
        · rcases hc with rfl | rfl | rfl | rfl | rfl <;> decide
        · rcases hc with rfl | rfl | rfl | rfl <;> decide
      | int n => exact intReprChars_ascii n c hc
      | dec dd => exact decReprChars_ascii dd c hc
      | str s =>
        rcases List.mem_cons.mp hc with rfl | hc
        · decide
        rcases List.mem_append.mp hc with hc | hc
        · exact escapeList_ascii s.data c hc
        · rw [List.mem_singleton.mp hc]; decide
      | arr xs =>
        have hlen2 : (dumpElems xs).length + 1 ≤ N := by
          have : (dumpVal (.arr xs)).length = (dumpElems xs).length + 2 := by
            show ('[' :: (dumpElems xs ++ [']'])).length = _
            simp
          omega
        rcases List.mem_cons.mp hc with rfl | hc
        · decide
        rcases List.mem_append.mp hc with hc | hc
        · exact ihE xs hlen2 c hc
        · rw [List.mem_singleton.mp hc]; decide
      | obj kvs =>
        have hlen2 : (dumpMembers kvs).length + 1 ≤ N := by
          have : (dumpVal (.obj kvs)).length =
              (dumpMembers kvs).length + 2 := by
            show ('{' :: (dumpMembers kvs ++ ['}'])).length = _
            simp
          omega
        rcases List.mem_cons.mp hc with rfl | hc
        · decide
        rcases List.mem_append.mp hc with hc | hc
        · exact ihM kvs hlen2 c hc
        · rw [List.mem_singleton.mp hc]; decide
    · intro xs hlen c hc
      cases xs with
      | nil => cases hc
      | cons x t =>
        cases t with
        | nil =>
          exact ihV x (by
            rw [show dumpElems [x] = dumpVal x from rfl] at hlen
            omega) c hc
        | cons y ys =>
          have hsplit : dumpElems (x :: y :: ys) =
              dumpVal x ++ ',' :: dumpElems (y :: ys) := rfl
          rw [hsplit] at hc hlen
          simp only [List.length_append, List.length_cons] at hlen
          rcases List.mem_append.mp hc with hc | hc
          · exact ihV x (by omega) c hc
          rcases List.mem_cons.mp hc with rfl | hc
          · decide
          · exact ihE (y :: ys) (by omega) c hc
    · intro kvs hlen c hc
      cases kvs with
      | nil => cases hc
      | cons kv t =>
        obtain ⟨k, v⟩ := kv
        cases t with
        | nil =>
          have hsplit : dumpMembers [(k, v)] =
              '"' :: (escapeList k.data ++ '"' :: ':' :: dumpVal v) := rfl
          rw [hsplit] at hc hlen
          simp only [List.length_cons, List.length_append] at hlen
          rcases List.mem_cons.mp hc with rfl | hc
          · decide
          rcases List.mem_append.mp hc with hc | hc
          · exact escapeList_ascii k.data c hc
          rcases List.mem_cons.mp hc with rfl | hc
          · decide
          rcases List.mem_cons.mp hc with rfl | hc
          · decide
          · exact ihV v (by omega) c hc
        | cons kv2 t2 =>
          have hsplit : dumpMembers ((k, v) :: kv2 :: t2) =
              ('"' :: (escapeList k.data ++ '"' :: ':' :: dumpVal v)) ++
                ',' :: dumpMembers (kv2 :: t2) := rfl
          rw [hsplit] at hc hlen
          simp only [List.length_append, List.length_cons] at hlen
          rcases List.mem_append.mp hc with hc | hc
          · rcases List.mem_cons.mp hc with rfl | hc
            · decide
            rcases List.mem_append.mp hc with hc | hc
            · exact escapeList_ascii k.data c hc
            rcases List.mem_cons.mp hc with rfl | hc
            · decide
            rcases List.mem_cons.mp hc with rfl | hc
            · decide
            · exact ihV v (by omega) c hc
          rcases List.mem_cons.mp hc with rfl | hc
          · decide
          · exact ihM (kv2 :: t2) (by omega) c hc

/-- Every character of a serialized value is ASCII. -/
theorem dumpVal_ascii (v : JVal) : ∀ c ∈ dumpVal v, c.toNat < 128 :=
  (dump_ascii_aux (dumpVal v).length).1 v le_rfl

/-! ## Cursor codec (src/helpers.py). -/

/-- Model of `encode_cursor`: compact JSON of the payload, UTF-8 encoded,
urlsafe-base64 encoded, read back as the ASCII characters of the token. -/
def encode_cursor (payload : JVal) : List Char :=
  b64EncodeChars (utf8List (dumpVal payload))

/-- How a call to `decode_cursor` ends: a returned dict, an
`HTTPException(400, detail)`, or an exception escaping the handler
(surfacing as a server fault). -/
inductive DecodeOutcome where
  | ok (data : JVal)
  | badRequest (detail : String)
  | uncaughtError

/-- Model of `decode_cursor`: `cursor.encode("ascii")` — whose
`UnicodeEncodeError` is not in the caught tuple `(binascii.Error,
UnicodeDecodeError, json.JSONDecodeError)` and escapes the handler —
then `urlsafe_b64decode` (`binascii.Error` → 400 `Invalid cursor`),
`raw.decode("utf-8")` (`UnicodeDecodeError` → 400), `json.loads`
(`JSONDecodeError` → 400), then the dict shape check for the `id` and
`score` members (→ 400 `Malformed cursor`). -/
def decode_cursor (cursor : List Char) : DecodeOutcome :=
  match asciiEncode cursor with
  | none => .uncaughtError
  | some bs =>
    match b64DecodeBytes bs with
    | none => .badRequest "Invalid cursor"
    | some raw =>
      match utf8Decode raw with
      | none => .badRequest "Invalid cursor"
      | some cs =>
        match jsonLoads cs with
        | none => .badRequest "Invalid cursor"
        | some data =>
          match data with
          | .obj kvs =>
            if ((jlookup kvs "id").isSome && (jlookup kvs "score").isSome) =
                true then
              .ok data
            else .badRequest "Malformed cursor"
          | _ => .badRequest "Malformed cursor"

/-- C6: Cursor round-trip: for every valid pair `{id: integer, score:
float}` (the score a canonical decimal, as `repr(float)` prints), decoding
the encoded cursor returns an object equal to the original pair. -/
theorem C6_theorem (i : Int) (s : Dec) (hs : s.Canonical) :
    decode_cursor (encode_cursor
      (.obj [("id", .int i), ("score", .dec s)])) =
      .ok (.obj [("id", .int i), ("score", .dec s)]) := by
  have hascii := dumpVal_ascii (.obj [("id", .int i), ("score", .dec s)])
  have hcanon : canonV (.obj [("id", .int i), ("score", .dec s)]) = true := by
    show (canonV (.int i) && (canonV (.dec s) && canonM [])) = true
    show (true && (decide s.Canonical && true)) = true
    rw [decide_eq_true hs]
    rfl
  have hB : ∀ b ∈ utf8List (dumpVal (.obj [("id", .int i),
      ("score", .dec s)])), b < 256 := by
    rw [utf8List_of_ascii _ hascii]
    intro b hb
    obtain ⟨c, hc, rfl⟩ := List.mem_map.mp hb
    have := hascii c hc
    omega
  have henc := asciiEncode_of_ascii _ (b64EncodeChars_ascii _ hB)
  have hdec := b64_decode_encode _ hB
  have hutf := utf8Decode_utf8List _ hascii
  have hjson := jsonLoads_dump _ hcanon
  simp only [decode_cursor, encode_cursor, henc, hdec, hutf, hjson]
  rfl

/-- C6 witness at a concrete pair. -/
theorem C6_witness :
    (⟨15, 1⟩ : Dec).Canonical ∧
      decode_cursor (encode_cursor
        (.obj [("id", .int 7), ("score", .dec ⟨15, 1⟩)])) =
        .ok (.obj [("id", .int 7), ("score", .dec ⟨15, 1⟩)]) :=
  ⟨by decide, C6_theorem 7 ⟨15, 1⟩ (by decide)⟩

/-- C7: the claimed dichotomy fails. `decode_cursor` of the one-character
token `é` hits `cursor.encode("ascii")`, whose `UnicodeEncodeError` is not
in the caught exception tuple, so the call escapes as a server fault
rather than the claimed client error; for purely ASCII tokens the
dichotomy does hold (every outcome is a returned dict or an HTTP 400). -/
theorem C7_theorem :
    decode_cursor [Char.ofNat 233] = .uncaughtError ∧
      ∀ cursor : List Char, (∀ c ∈ cursor, c.toNat < 128) →
        decode_cursor cursor ≠ .uncaughtError := by
  constructor
  · rfl
  · intro cursor h
    simp only [decode_cursor, asciiEncode_of_ascii cursor h]
    repeat' split
    all_goals exact fun hcon => DecodeOutcome.noConfusion hcon

/-- C7 witness: a concrete ASCII token does not fault. -/
theorem C7_witness : decode_cursor ['A'] ≠ DecodeOutcome.uncaughtError :=
  C7_theorem.2 ['A'] (by decide)

/-! ## The GET /books handler (src/routers/book.py, get_books_router):
cache-first control flow and pagination-mode validation. -/

/-- Modelled from the spec: the sort fields accepted by the books list
endpoint (`similarity`, `title`, `year` in `field:direction` controls). -/
inductive SortField where
  | by_similarity
  | by_title
  | by_year
deriving DecidableEq

/-- Enum value string of a sort field. -/
def sortFieldStr : SortField → String
  | .by_similarity => "by_similarity"
  | .by_title => "by_title"
  | .by_year => "by_year"

/-- Enum value string of a sort direction. -/
def sortDirStr : SortDirection → String
  | .asc => "asc"
  | .desc => "desc"

/-- Modelled from the spec: `BookSortControl.model_dump()`, the dict
`{"sort_field": ..., "sort_direction": ...}`. -/
def sortControlDump (s : SortField × SortDirection) : JVal :=
  .obj [("sort_field", .str (sortFieldStr s.1)),
    ("sort_direction", .str (sortDirStr s.2))]

/-- Python `None`-or-string query parameter as a JSON value. -/
def optStr : Option String → JVal
  | none => .null
  | some s => .str s

/-- Python `None`-or-int query parameter as a JSON value. -/
def optInt : Option Int → JVal
  | none => .null
  | some n => .int n

/-- The `params` dict built by `get_books_router` (book.py lines 63-74),
in insertion order. -/
def booksParams (q title isbn : Option String)
    (author_id bYear aYear : Option Int) (limit : Int)
    (offset : Option Int) (cursor : Option String)
    (sort : List (SortField × SortDirection)) : Params :=
  [("q", optStr q), ("title", optStr title), ("isbn", optStr isbn),
    ("author_id", optInt author_id), ("before", optInt bYear),
    ("after", optInt aYear), ("limit", .int limit),
    ("offset", optInt offset), ("cursor", optStr cursor),
    ("sort", .arr (sort.map sortControlDump))]

/-- How a books list request ends: returned straight from the cache,
rejected with `HTTPException(400, detail)`, a fault (an exception escaping
the handler), or served from the ranked query (and written back to the
cache). -/
inductive BooksOutcome where
  | fromCache (v : JVal)
  | rejected (detail : String)
  | fault
  | served (v : JVal)

/-- Whether the primary (first) sort control is `by_similarity`
(book.py lines 144-145). -/
def primarySimilarity : List (SortField × SortDirection) → Bool
  | [] => false
  | s :: _ => decide (s.1 = SortField.by_similarity)

/-- Control flow of `get_books_router` (book.py lines 55-200): default the
sort for full-text queries, build the params dict, build the versioned
cache key, return a cache hit as-is; otherwise raise 400 for a
`by_similarity` sort control without `q`, then 400 when both `cursor` and
`offset` are supplied, then decode the cursor when keyset pagination
applies (400 for a cursor without a `by_similarity` primary sort);
otherwise run the ranked query — abstracted by `serialized`, the
`PaginatedBooks.model_dump()` of its rows, since only whether it runs
matters here — write the wrapped result to the cache and serve it.
Returns the outcome, the cache store after the request and whether the
query ran. A supplied-but-empty string parameter is not distinguished
from an absent one (Python truthiness), except in the `is not None`
cursor/offset exclusivity test, which is modelled exactly. -/
def get_books_router (q title isbn : Option String)
    (author_id bYear aYear : Option Int) (limit : Int)
    (offset : Option Int) (cursor : Option String)
    (sort0 : List (SortField × SortDirection)) (version : Int)
    (serialized : JVal) (st : JStore) : BooksOutcome × JStore × Bool :=
  let sort := if q ≠ none ∧ sort0 = [] then
    [(SortField.by_similarity, SortDirection.desc)] else sort0
  let kp := make_list_key_with_payload "books:list"
    (booksParams q title isbn author_id bYear aYear limit offset cursor sort)
    version
  match get_list_with_params kp.1 kp.2 st with
  | some cache => (.fromCache cache, st, false)
  | none =>
    if (sort.any fun s => decide (s.1 = SortField.by_similarity)) = true ∧
        q = none then
      (.rejected "by_similarity only works with q", st, false)
    else if cursor ≠ none ∧ offset ≠ none then
      (.rejected "Cannot use both cursor and offset", st, false)
    else
      match cursor with
      | some cur =>
        if primarySimilarity sort = true then
          match decode_cursor cur.data with
          | .ok _ =>
            (.served serialized,
              cache_list_with_params kp.1 serialized kp.2 st, true)
          | .badRequest d => (.rejected d, st, false)
          | .uncaughtError => (.fault, st, false)
        else
          (.rejected "cursor pagination is only supported for by_similarity sort",
            st, false)
      | none =>
        (.served serialized,
          cache_list_with_params kp.1 serialized kp.2 st, true)

/-- A normalized-parameter payload that some books list request supplying
BOTH a cursor and an offset would carry. -/
def BothSetPayload (payload : String) : Prop :=
  ∃ q title isbn author_id bYear aYear limit c o sort,
    payload = (normalize_params (booksParams q title isbn author_id bYear
      aYear limit (some o) (some c) sort)).2

/-- Cache discipline: no stored list wrapper carries the payload of a
request that supplied both a cursor and an offset. The empty store
satisfies it, and the books handler preserves it (second half of the C8
theorem), because rejected requests never reach the write. -/
def GoodStore (st : JStore) : Prop :=
  ∀ key kvs s, st key = some (.obj kvs) →
    jlookup kvs "_params" = some (.str s) → ¬ BothSetPayload s

/-- Under the cache discipline, a request whose payload is both-set can
never hit the cache. -/
theorem miss_of_goodstore (key payload : String) (st : JStore)
    (hg : GoodStore st) (hb : BothSetPayload payload) :
    get_list_with_params key payload st = none := by
  unfold get_list_with_params get_list
  cases hk : st key with
  | none => rfl
  | some v =>
    cases v with
    | obj kvs =>
      cases hj : jlookup kvs "_params" with
      | none => simp [hk, hj]
      | some pv =>
        cases pv with
        | str p =>
          by_cases hp : p = payload
          · exact absurd (by rw [hp]; exact hb) (hg key kvs p hk hj)
          · simp [hk, hj, hp]
        | null => simp [hk, hj]
        | bool b => simp [hk, hj]
        | int n => simp [hk, hj]
        | dec d => simp [hk, hj]
        | arr xs => simp [hk, hj]
        | obj kvs2 => simp [hk, hj]
    | null => simp [hk]
    | bool b => simp [hk]
    | int n => simp [hk]
    | dec d => simp [hk]
    | str s2 => simp [hk]
    | arr xs => simp [hk]

theorem canonM_of_forall (kvs : List (String × JVal))
    (h : ∀ kv ∈ kvs, canonV kv.2 = true) : canonM kvs = true := by
  induction kvs with
  | nil => rfl
  | cons kv t ih =>
    obtain ⟨k, v⟩ := kv
    show (canonV v && canonM t) = true
    rw [h (k, v) (by simp), ih (fun x hx => h x (by simp [hx]))]
    rfl

theorem canonL_of_forall (xs : List JVal)
    (h : ∀ x ∈ xs, canonV x = true) : canonL xs = true := by
  induction xs with
  | nil => rfl
  | cons x t ih =>
    show (canonV x && canonL t) = true
    rw [h x (by simp), ih (fun y hy => h y (by simp [hy]))]
    rfl

theorem sortAllList_eq_map (l : List JVal) : sortAllList l = l.map sortAll := by
  induction l with
  | nil => rfl
  | cons x t ih => simp [sortAllList, ih]

theorem canonV_sortAll_sortControlDump (s : SortField × SortDirection) :
    canonV (sortAll (sortControlDump s)) = true := by
  obtain ⟨f, dir⟩ := s
  show canonM (List.insertionSort keyLe (sortAllObj
    [("sort_field", .str (sortFieldStr f)),
      ("sort_direction", .str (sortDirStr dir))])) = true
  refine canonM_of_forall _ ?_
  intro kv hkv
  have hmem := (List.perm_insertionSort keyLe _).mem_iff.mp hkv
  simp only [sortAllObj, List.mem_cons, List.not_mem_nil, or_false] at hmem
  rcases hmem with rfl | rfl <;> rfl

theorem canonV_books_payload (q title isbn : Option String)
    (author_id bYear aYear : Option Int) (limit : Int)
    (offset : Option Int) (cursor : Option String)
    (sort : List (SortField × SortDirection)) :
    canonV (sortAll (.obj ((booksParams q title isbn author_id bYear aYear
      limit offset cursor sort).filter fun kv => !kv.2.isNull))) = true := by
  show canonM (List.insertionSort keyLe (sortAllObj _)) = true
  refine canonM_of_forall _ ?_
  intro kv hkv
  have hmem := (List.perm_insertionSort keyLe _).mem_iff.mp hkv
  rw [sortAllObj_eq_map] at hmem
  obtain ⟨kv0, hkv0, rfl⟩ := List.mem_map.mp hmem
  have hmem0 := (List.mem_filter.mp hkv0).1
  simp only [booksParams, List.mem_cons, List.not_mem_nil, or_false] at hmem0
  rcases hmem0 with h | h | h | h | h | h | h | h | h | h
  · rw [h]; cases q <;> rfl
  · rw [h]; cases title <;> rfl
  · rw [h]; cases isbn <;> rfl
  · rw [h]; cases author_id <;> rfl
  · rw [h]; cases bYear <;> rfl
  · rw [h]; cases aYear <;> rfl
  · rw [h]; rfl
  · rw [h]; cases offset <;> rfl
  · rw [h]; cases cursor <;> rfl
  · rw [h]
    show canonL (sortAllList (sort.map sortControlDump)) = true
    rw [sortAllList_eq_map]
    refine canonL_of_forall _ ?_
    intro x hx
    rw [List.map_map] at hx
    obtain ⟨s0, hs0, rfl⟩ := List.mem_map.mp hx
    exact canonV_sortAll_sortControlDump s0

theorem clean_mem_cursor {q title isbn : Option String}
    {author_id bYear aYear : Option Int} {limit : Int}
    {offset : Option Int} {cursor : Option String}
    {sort : List (SortField × SortDirection)} {y : JVal}
    (h : ("cursor", y) ∈ (booksParams q title isbn author_id bYear aYear
      limit offset cursor sort).filter (fun kv => !kv.2.isNull)) :
    cursor ≠ none := by
  obtain ⟨hmem, hnn⟩ := List.mem_filter.mp h
  simp only [booksParams, List.mem_cons, List.not_mem_nil, or_false] at hmem
  rcases hmem with h1 | h1 | h1 | h1 | h1 | h1 | h1 | h1 | h1 | h1
  any_goals (rw [Prod.mk.injEq] at h1; refine absurd h1.1 ?_; decide)
  intro hc
  subst hc
  have h2 : y = JVal.null := congrArg Prod.snd h1
  have hnn2 : (!y.isNull) = true := hnn
  rw [h2] at hnn2
  exact absurd hnn2 (by decide)

theorem clean_mem_offset {q title isbn : Option String}
    {author_id bYear aYear : Option Int} {limit : Int}
    {offset : Option Int} {cursor : Option String}
    {sort : List (SortField × SortDirection)} {y : JVal}
    (h : ("offset", y) ∈ (booksParams q title isbn author_id bYear aYear
      limit offset cursor sort).filter (fun kv => !kv.2.isNull)) :
    offset ≠ none := by
  obtain ⟨hmem, hnn⟩ := List.mem_filter.mp h
  simp only [booksParams, List.mem_cons, List.not_mem_nil, or_false] at hmem
  rcases hmem with h1 | h1 | h1 | h1 | h1 | h1 | h1 | h1 | h1 | h1
  any_goals (rw [Prod.mk.injEq] at h1; refine absurd h1.1 ?_; decide)
  intro hc
  subst hc
  have h2 : y = JVal.null := congrArg Prod.snd h1
  have hnn2 : (!y.isNull) = true := hnn
  rw [h2] at hnn2
  exact absurd hnn2 (by decide)

theorem clean_cursor_mem (q title isbn : Option String)
    (author_id bYear aYear : Option Int) (limit : Int)
    (offset : Option Int) (c : String)
    (sort : List (SortField × SortDirection)) :
    ("cursor", .str c) ∈ (booksParams q title isbn author_id bYear aYear
      limit offset (some c) sort).filter (fun kv => !kv.2.isNull) := by
  refine List.mem_filter.mpr ⟨?_, rfl⟩
  simp [booksParams, optStr]

theorem clean_offset_mem (q title isbn : Option String)
    (author_id bYear aYear : Option Int) (limit : Int) (o : Int)
    (cursor : Option String) (sort : List (SortField × SortDirection)) :
    ("offset", .int o) ∈ (booksParams q title isbn author_id bYear aYear
      limit (some o) cursor sort).filter (fun kv => !kv.2.isNull) := by
  refine List.mem_filter.mpr ⟨?_, rfl⟩
  simp [booksParams, optInt]

/-- A request that does not supply both a cursor and an offset never
produces a both-set payload: the normalized payload determines, through
serializer injectivity, whether the `cursor` and `offset` keys survived
`None`-filtering. -/
theorem not_bothset (q title isbn : Option String)
    (author_id bYear aYear : Option Int) (limit : Int)
    (offset : Option Int) (cursor : Option String)
    (sort : List (SortField × SortDirection))
    (hno : cursor = none ∨ offset = none) :
    ¬ BothSetPayload (normalize_params (booksParams q title isbn author_id
      bYear aYear limit offset cursor sort)).2 := by
  rintro ⟨q', t', i', a', b', f', l', c', o', s', hpay⟩
  have hAB : dumpVal (sortAll (.obj ((booksParams q title isbn author_id
      bYear aYear limit offset cursor sort).filter
        fun kv => !kv.2.isNull))) =
      dumpVal (sortAll (.obj ((booksParams q' t' i' a' b' f' l' (some o')
        (some c') s').filter fun kv => !kv.2.isNull))) :=
    congrArg String.data hpay
  have hEq := dumpVal_injective
    (canonV_books_payload q title isbn author_id bYear aYear limit offset
      cursor sort)
    (canonV_books_payload q' t' i' a' b' f' l' (some o') (some c') s') hAB
  have h2 : JVal.obj (List.insertionSort keyLe (sortAllObj
      ((booksParams q title isbn author_id bYear aYear limit offset cursor
        sort).filter fun kv => !kv.2.isNull))) =
      JVal.obj (List.insertionSort keyLe (sortAllObj
        ((booksParams q' t' i' a' b' f' l' (some o') (some c')
          s').filter fun kv => !kv.2.isNull))) := hEq
  injection h2 with hs
  have hcmem : ("cursor", JVal.str c') ∈ sortAllObj
      ((booksParams q' t' i' a' b' f' l' (some o') (some c') s').filter
        fun kv => !kv.2.isNull) := by
    rw [sortAllObj_eq_map]
    exact List.mem_map.mpr
      ⟨("cursor", .str c'),
        clean_cursor_mem q' t' i' a' b' f' l' (some o') c' s', rfl⟩
  have homem : ("offset", JVal.int o') ∈ sortAllObj
      ((booksParams q' t' i' a' b' f' l' (some o') (some c') s').filter
        fun kv => !kv.2.isNull) := by
    rw [sortAllObj_eq_map]
    exact List.mem_map.mpr
      ⟨("offset", .int o'),
        clean_offset_mem q' t' i' a' b' f' l' o' (some c') s', rfl⟩
  have hcson : ("cursor", JVal.str c') ∈ sortAllObj
      ((booksParams q title isbn author_id bYear aYear limit offset cursor
        sort).filter fun kv => !kv.2.isNull) := by
    have hin := (List.perm_insertionSort keyLe _).mem_iff.mpr hcmem
    rw [← hs] at hin
    exact (List.perm_insertionSort keyLe _).mem_iff.mp hin
  have hoson : ("offset", JVal.int o') ∈ sortAllObj
      ((booksParams q title isbn author_id bYear aYear limit offset cursor
        sort).filter fun kv => !kv.2.isNull) := by
    have hin := (List.perm_insertionSort keyLe _).mem_iff.mpr homem
    rw [← hs] at hin
    exact (List.perm_insertionSort keyLe _).mem_iff.mp hin
  rw [sortAllObj_eq_map] at hcson hoson
  obtain ⟨kvc, hkvc, heqc⟩ := List.mem_map.mp hcson
  obtain ⟨kvo, hkvo, heqo⟩ := List.mem_map.mp hoson
  have hc1 : kvc.1 = "cursor" := congrArg Prod.fst heqc
  have ho1 : kvo.1 = "offset" := congrArg Prod.fst heqo
  have hcin : ("cursor", kvc.2) ∈ (booksParams q title isbn author_id bYear
      aYear limit offset cursor sort).filter (fun kv => !kv.2.isNull) := by
    rw [← hc1]
    exact hkvc
  have hoin : ("offset", kvo.2) ∈ (booksParams q title isbn author_id bYear
      aYear limit offset cursor sort).filter (fun kv => !kv.2.isNull) := by
    rw [← ho1]
    exact hkvo
  rcases hno with hno | hno
  · exact clean_mem_cursor hcin hno
  · exact clean_mem_offset hoin hno

/-- A legitimate write (non-both-set payload) preserves the cache
discipline. -/
theorem goodstore_write (key : String) (data : JVal) (payload : String)
    (st : JStore) (hg : GoodStore st) (hp : ¬ BothSetPayload payload) :
    GoodStore (cache_list_with_params key data payload st) := by
  intro k kvs s hk hj hbs
  unfold cache_list_with_params cache_list at hk
  by_cases hkey : k = key
  · rw [if_pos hkey] at hk
    have hkvs : [("data", data), ("_params", JVal.str payload)] = kvs :=
      JVal.obj.inj (Option.some.inj hk)
    rw [← hkvs] at hj
    have hps : payload = s := by
      have : some (JVal.str payload) = some (JVal.str s) := hj
      exact JVal.str.inj (Option.some.inj this)
    rw [hps] at hp
    exact hp hbs
  · rw [if_neg hkey] at hk
    exact hg k kvs s hk hj hbs

/-- A both-set request always takes a 400 rejection: the cache cannot hit
(discipline), and whichever validation fires first is a 400. -/
theorem books_bothset_rejected (q title isbn : Option String)
    (author_id bYear aYear : Option Int) (limit : Int) (c : String)
    (o : Int) (sort : List (SortField × SortDirection)) (version : Int)
    (serialized : JVal) (st : JStore) (hg : GoodStore st) :
    ∃ d, get_books_router q title isbn author_id bYear aYear limit (some o)
        (some c) sort version serialized st =
      (.rejected d, st, false) := by
  have hb : BothSetPayload (make_list_key_with_payload "books:list"
      (booksParams q title isbn author_id bYear aYear limit (some o)
        (some c) (if q ≠ none ∧ sort = [] then
          [(SortField.by_similarity, SortDirection.desc)] else sort))
      version).2 :=
    ⟨q, title, isbn, author_id, bYear, aYear, limit, c, o, _, rfl⟩
  have hmiss := miss_of_goodstore (make_list_key_with_payload "books:list"
      (booksParams q title isbn author_id bYear aYear limit (some o)
        (some c) (if q ≠ none ∧ sort = [] then
          [(SortField.by_similarity, SortDirection.desc)] else sort))
      version).1 _ st hg hb
  simp only [get_books_router, hmiss]
  by_cases hsim : ((if q ≠ none ∧ sort = [] then
      [(SortField.by_similarity, SortDirection.desc)] else sort).any
        fun s => decide (s.1 = SortField.by_similarity)) = true ∧ q = none
  · refine ⟨"by_similarity only works with q", ?_⟩
    rw [if_pos hsim]
  · refine ⟨"Cannot use both cursor and offset", ?_⟩
    rw [if_neg hsim, if_pos (show some c ≠ none ∧ some o ≠ none from
      ⟨by simp, by simp⟩)]

/-- The books handler preserves the cache discipline: it writes only the
payload of a request that passed the cursor/offset exclusivity check. -/
theorem books_preserves_good (q title isbn : Option String)
    (author_id bYear aYear : Option Int) (limit : Int)
    (offset : Option Int) (cursor : Option String)
    (sort : List (SortField × SortDirection)) (version : Int)
    (serialized : JVal) (st : JStore) (hg : GoodStore st) :
    GoodStore (get_books_router q title isbn author_id bYear aYear limit
      offset cursor sort version serialized st).2.1 := by
  simp only [get_books_router]
  set sort2 := if q ≠ none ∧ sort = [] then
    [(SortField.by_similarity, SortDirection.desc)] else sort with hsort2
  set kp := make_list_key_with_payload "books:list"
    (booksParams q title isbn author_id bYear aYear limit offset cursor
      sort2) version with hkp
  cases hm : get_list_with_params kp.1 kp.2 st with
  | some cache => exact hg
  | none =>
    by_cases h1 : (sort2.any fun s =>
        decide (s.1 = SortField.by_similarity)) = true ∧ q = none
    · rw [if_pos h1]
      exact hg
    rw [if_neg h1]
    by_cases h2 : cursor ≠ none ∧ offset ≠ none
    · rw [if_pos h2]
      exact hg
    rw [if_neg h2]
    cases cursor with
    | none =>
      exact goodstore_write kp.1 serialized kp.2 st hg
        (not_bothset q title isbn author_id bYear aYear limit offset none
          sort2 (Or.inl rfl))
    | some cur =>
      have hoff : offset = none := by
        by_contra hco
        exact h2 ⟨by simp, hco⟩
      simp only []
      by_cases hbs : primarySimilarity sort2 = true
      · rw [if_pos hbs]
        cases hdc : decode_cursor cur.data with
        | ok data =>
          exact goodstore_write kp.1 serialized kp.2 st hg
            (not_bothset q title isbn author_id bYear aYear limit offset
              (some cur) sort2 (Or.inr hoff))
        | badRequest d => exact hg
        | uncaughtError => exact hg
      · rw [if_neg hbs]
        exact hg

/-- C8: a books list request that supplies both a cursor and an offset is
rejected with HTTP 400, before any ranked query runs and without touching
the cache: under the cache-write discipline `GoodStore` (which the empty
cache satisfies), the handler returns a `rejected` outcome with the store
unchanged and the query flag false — and every request, of any shape,
preserves that discipline, because the cache write happens only after the
exclusivity check passed and the written payload can never equal a
both-set request's payload (serializer injectivity). -/
theorem C8_theorem :
    (∀ q title isbn author_id bYear aYear limit c o sort version serialized
        (st : JStore), GoodStore st →
      ∃ d, get_books_router q title isbn author_id bYear aYear limit
          (some o) (some c) sort version serialized st =
        (.rejected d, st, false)) ∧
    (∀ q title isbn author_id bYear aYear limit offset cursor sort version
        serialized (st : JStore), GoodStore st →
      GoodStore (get_books_router q title isbn author_id bYear aYear limit
        offset cursor sort version serialized st).2.1) :=
  ⟨fun q title isbn author_id bYear aYear limit c o sort version serialized
      st hg =>
    books_bothset_rejected q title isbn author_id bYear aYear limit c o
      sort version serialized st hg,
    fun q title isbn author_id bYear aYear limit offset cursor sort version
      serialized st hg =>
    books_preserves_good q title isbn author_id bYear aYear limit offset
      cursor sort version serialized st hg⟩

/-- C8 witness: a concrete both-set request against the empty cache. -/
theorem C8_witness :
    ∃ d, get_books_router none none none none none none 20 (some 0)
        (some "x") [] 1 JVal.null (fun _ => none) =
      (.rejected d, (fun _ => none : JStore), false) :=
  C8_theorem.1 none none none none none none 20 "x" 0 [] 1 JVal.null
    (fun _ => none) (fun _ _ _ h _ _ => Option.noConfusion h)

end LibraryApp
